import Mathlib

/-!
# Verification of an ECC-from-scratch implementation

This file gives a shallow embedding of the Python sources (`field.py`,
`curve.py`, `ecdsa.py`, `ecdh.py`) and proves/refutes the frozen claims
about them.

Conventions of the embedding:
* Python arbitrary-precision integers are `Int`; byte strings are `List Nat`
  (one entry per byte).
* Python `x % p` coincides with Lean's `Int.emod` for every positive modulus
  `p` (both return the representative in `[0, p)`); all moduli appearing in
  the program (`curve.p`, `curve.n`) are positive in every claim considered.
* Code that can raise an exception is modelled in `Except Err`; each Python
  exception used by the sources has its own `Err` constructor.  Unbounded
  `while` loops and unbounded recursive retries are modelled with an explicit
  fuel parameter; running out of fuel yields `Err.fuel`, so any `.ok` result
  of the model is a result the Python code actually returns.
* Python compares `Curve` objects by reference (`is`); the embedding compares
  them structurally.  Distinct structurally-equal curve objects are not
  distinguishable in the embedding; no claim depends on that distinction.
* The external SHA-256 digest is an opaque capability per the specification;
  it is passed as an explicit function argument `sha : List Nat → List Nat`.
  HMAC (`hmac.new(K, msg, sha256).digest()`) is implemented from `sha` by the
  standard RFC 2104 construction with a 64-byte block, mirroring the Python
  standard library.
-/

namespace ECC

/-- The exception taxonomy of the sources:
`pointNotOnCurve` = `ValueError("Point is not on the curve")`,
`crossCurve` = `TypeError("Points on different curves")`,
`divByZero` = `ZeroDivisionError` from `PrimeField.inv`,
`invalidScalar`/`invalidSharedPoint` = the two `ValueError`s of `ecdh.py`,
`noModInverse` = `ValueError` from Python `pow(x, -1, n)` when `gcd(x,n) ≠ 1`,
`typeErr` = `TypeError` from arithmetic on a `None` coordinate,
`indexErr` = `IndexError` from a list subscript out of range,
`fuel` = the model's marker for a non-terminating loop/retry (no Python
return value corresponds to it). -/
inductive Err where
  | pointNotOnCurve
  | crossCurve
  | divByZero
  | invalidScalar
  | invalidSharedPoint
  | noModInverse
  | typeErr
  | indexErr
  | fuel
deriving DecidableEq, Repr

instance {ε α : Type} [DecidableEq ε] [DecidableEq α] : DecidableEq (Except ε α) := by
  intro a b
  cases a <;> cases b
  case error.error e e' =>
    exact if h : e = e' then .isTrue (by rw [h]) else .isFalse (by simp [h])
  case error.ok e a' => exact .isFalse (by simp)
  case ok.error a' e => exact .isFalse (by simp)
  case ok.ok a' b' =>
    exact if h : a' = b' then .isTrue (by rw [h]) else .isFalse (by simp [h])

/-! ## `field.py` -/

/-- `class PrimeField: p: int` — wraps the modulus. -/
structure PrimeField where
  p : Int
deriving DecidableEq, Repr

namespace PrimeField

/-- `def normalize(self, x): return x % self.p` -/
def normalize (F : PrimeField) (x : Int) : Int := x % F.p

/-- `def add(self, a, b): return (a + b) % self.p` -/
def add (F : PrimeField) (a b : Int) : Int := (a + b) % F.p

/-- `def sub(self, a, b): return (a - b) % self.p` -/
def sub (F : PrimeField) (a b : Int) : Int := (a - b) % F.p

/-- `def mul(self, a, b): return (a * b) % self.p` -/
def mul (F : PrimeField) (a b : Int) : Int := (a * b) % F.p

/-- `def neg(self, a): return (-a) % self.p` -/
def neg (F : PrimeField) (a : Int) : Int := (-a) % F.p

/-- `def pow(self, a, e): return pow(a, e, self.p)` (used with nonnegative
exponents only). -/
def pow (F : PrimeField) (a : Int) (e : Nat) : Int := (a ^ e) % F.p

/-- `def inv(self, a)`: raises `ZeroDivisionError` when `a % p == 0`,
otherwise returns `pow(a, p - 2, p)` (Fermat). -/
def inv (F : PrimeField) (a : Int) : Except Err Int :=
  if a % F.p = 0 then .error .divByZero
  else .ok (F.pow a (F.p - 2).toNat)

/-- `def div(self, a, b): return self.mul(a, self.inv(b))` -/
def div (F : PrimeField) (a b : Int) : Except Err Int := do
  let i ← F.inv b
  return F.mul a i

end PrimeField

/-! ## `curve.py`: curve and point data -/

/-- `class Curve`: short Weierstrass curve `y² = x³ + a·x + b (mod p)` with
base point `(Gx, Gy)` of order `n` and cofactor `h`. -/
structure Curve where
  name : String
  p : Int
  a : Int
  b : Int
  Gx : Int
  Gy : Int
  n : Int
  h : Int
deriving DecidableEq, Repr

/-- `Curve.F` property. -/
def Curve.F (c : Curve) : PrimeField := ⟨c.p⟩

/-- `class Point`: a curve reference plus optional coordinates; `(none, none)`
is the point at infinity. -/
structure Point where
  curve : Curve
  x : Option Int
  y : Option Int
deriving DecidableEq, Repr

namespace Point

/-- `def is_infinity(self): return self.x is None and self.y is None` -/
def is_infinity (P : Point) : Bool := P.x = none && P.y = none

/-- `Point.infinity(curve)` -/
def infinity (c : Curve) : Point := ⟨c, none, none⟩

end Point

/-- The on-curve test performed by `Point.__post_init__` on the normalized
coordinates: `F.pow(y, 2) == (F.pow(x, 3) + F.mul(a, x) + b) % p`. -/
def curveEq (c : Curve) (x y : Int) : Prop :=
  c.F.pow y 2 = (c.F.pow x 3 + c.F.mul c.a x + c.b) % c.F.p

instance (c : Curve) (x y : Int) : Decidable (curveEq c x y) := by
  unfold curveEq; infer_instance

/-- The `Point(curve, x, y)` constructor for affine coordinates:
`__post_init__` normalizes both coordinates mod `p` and raises
`ValueError` unless the curve equation holds. -/
def mkPoint (c : Curve) (x y : Int) : Except Err Point :=
  let x' := x % c.F.p
  let y' := y % c.F.p
  if curveEq c x' y' then .ok ⟨c, some x', some y'⟩
  else .error .pointNotOnCurve

namespace Point

/-- `def __neg__(self)`: infinity maps to itself, otherwise
`Point(curve, x, F.neg(y))` (which re-runs constructor validation). -/
def neg (P : Point) : Except Err Point :=
  if P.is_infinity then .ok P
  else
    match P.x, P.y with
    | some x, some y => mkPoint P.curve x (P.curve.F.neg y)
    | _, _ => .error .typeErr

/-- `def __add__(self, other)`: the chord-tangent group law, with the exact
case precedence of the source.  The final `Point(...)` constructor call
re-validates membership, so the result can in principle raise
`pointNotOnCurve` as well. -/
def add (P Q : Point) : Except Err Point :=
  if P.curve ≠ Q.curve then .error .crossCurve
  else if P.is_infinity then .ok Q
  else if Q.is_infinity then .ok P
  else
    match P.x, P.y, Q.x, Q.y with
    | some x1, some y1, some x2, some y2 =>
      if x1 = x2 ∧ (y1 ≠ y2 ∨ y1 = 0) then .ok (Point.infinity P.curve)
      else do
        let F := P.curve.F
        let s ←
          if x1 = x2 ∧ y1 = y2 then
            F.div (F.add (F.mul 3 (F.pow x1 2)) P.curve.a) (F.mul 2 y1)
          else
            F.div (F.sub y2 y1) (F.sub x2 x1)
        let x3 := F.sub (F.sub (F.pow s 2) x1) x2
        let y3 := F.sub (F.mul s (F.sub x1 x3)) y1
        mkPoint P.curve x3 y3
    | _, _, _, _ => .error .typeErr

/-- `def double(self): return self + self` -/
def double (P : Point) : Except Err Point := P.add P

end Point

/-! ## `curve.py`: scalar multiplication -/

/-- The `while k:` loop of `scalar_mult`, made fuel-structural; the fuel never
runs out when `fuel ≥ k` (each pass halves `k`).  Order of effects matches the
source: the conditional accumulation `Q + base` runs before `base.double()`,
and the doubling runs on every pass, including the last. -/
def scalarLoop : Nat → Point → Point → Nat → Except Err Point
  | _, Q, _, 0 => .ok Q
  | 0, _, _, _ + 1 => .error .fuel
  | fuel + 1, Q, base, k => do
    let Q' ← if k % 2 = 1 then Q.add base else .ok Q
    let base' ← base.double
    scalarLoop fuel Q' base' (k / 2)

/-- The body of `scalar_mult` after the sign/zero guards (`k ≥ 0` here). -/
def scalar_mult_abs (k : Nat) (P : Point) : Except Err Point :=
  scalarLoop k (Point.infinity P.curve) P k

/-- `def scalar_mult(k, P)`: double-and-add.  The source's recursive call
`scalar_mult(-k, -P)` for `k < 0` is inlined once (the callee's two guards are
re-tested, then the loop runs on `-k > 0`, which cannot recurse again). -/
def scalar_mult (k : Int) (P : Point) : Except Err Point :=
  if k % P.curve.n = 0 ∨ P.is_infinity = true then .ok (Point.infinity P.curve)
  else if k < 0 then do
    let Pn ← P.neg
    if (-k) % Pn.curve.n = 0 ∨ Pn.is_infinity = true then .ok (Point.infinity Pn.curve)
    else scalar_mult_abs (-k).toNat Pn
  else scalar_mult_abs k.toNat P

/-- The digit `zi` computed by one pass of the wNAF digit loop:
`zi = k % 2^w`, shifted down by `2^w` when above `2^(w-1)`, for odd `k`;
`0` for even `k`. -/
def wnafStep (w k : Nat) : Int :=
  if k % 2 = 1 then
    if 2 ^ (w - 1) < k % 2 ^ w then ((k % 2 ^ w : Nat) : Int) - 2 ^ w
    else ((k % 2 ^ w : Nat) : Int)
  else 0

/-- The wNAF digit loop of `wnaf_scalar_mult`, fuel-structural (fuel ≥ k
suffices: each pass strictly decreases `k`).  Digits are produced
least-significant first, exactly as the Python list `naf`; the updated
scalar is `(k - zi) >> 1`. -/
def wnafDigits (w : Nat) : Nat → Nat → List Int
  | _, 0 => []
  | 0, _ + 1 => []
  | fuel + 1, k =>
    wnafStep w k :: wnafDigits w fuel (((k : Int) - wnafStep w k).toNat / 2)

/-- The precomputation loop: starting from `last`, append `last + twoP`
repeatedly (`count` times).  `wnaf_scalar_mult` uses
`P :: precompRun twoP P (2^(w-2) - 1)`, i.e. the odd multiples
`P, 3P, 5P, …`. -/
def precompRun (twoP : Point) : Point → Nat → Except Err (List Point)
  | _, 0 => .ok []
  | last, count + 1 => do
    let nxt ← last.add twoP
    let rest ← precompRun twoP nxt count
    return nxt :: rest

/-- The accumulation loop of `wnaf_scalar_mult` over digits in
most-significant-first order (`reversed(naf)`): double, then conditionally
add or subtract the precomputed odd multiple `precomp[(|zi| - 1) / 2]`. -/
def wnafAccum (precomp : List Point) : Point → List Int → Except Err Point
  | Q, [] => .ok Q
  | Q, zi :: rest => do
    let Qd ← Q.double
    let Qn ←
      if zi ≠ 0 then
        match precomp.get? ((zi.natAbs - 1) / 2) with
        | none => .error .indexErr
        | some addend =>
          if 0 < zi then Qd.add addend
          else do
            let na ← addend.neg
            Qd.add na
      else pure Qd
    wnafAccum precomp Qn rest

/-- The body of `wnaf_scalar_mult` after the sign/zero guards. -/
def wnaf_scalar_mult_abs (k : Nat) (P : Point) (w : Nat) : Except Err Point := do
  let twoP ← P.double
  let pre ← precompRun twoP P (2 ^ (w - 2) - 1)
  wnafAccum (P :: pre) (Point.infinity P.curve) (wnafDigits w k k).reverse

/-- `def wnaf_scalar_mult(k, P, w=5)`: windowed-NAF scalar multiplication.
As in `scalar_mult`, the recursive call for `k < 0` is inlined once. -/
def wnaf_scalar_mult (k : Int) (P : Point) (w : Nat) : Except Err Point :=
  if k % P.curve.n = 0 ∨ P.is_infinity = true then .ok (Point.infinity P.curve)
  else if k < 0 then do
    let Pn ← P.neg
    if (-k) % Pn.curve.n = 0 ∨ Pn.is_infinity = true then .ok (Point.infinity Pn.curve)
    else wnaf_scalar_mult_abs (-k).toNat Pn w
  else wnaf_scalar_mult_abs k.toNat P w

/-! ## `curve.py`: named curves and the base point -/

/-- `SECP256R1` (NIST P-256). -/
def SECP256R1 : Curve :=
  { name := "secp256r1"
    p := 0xffffffff00000001000000000000000000000000ffffffffffffffffffffffff
    a := 0xffffffff00000001000000000000000000000000fffffffffffffffffffffffc
    b := 0x5ac635d8aa3a93e7b3ebbd55769886bc651d06b0cc53b0f63bce3c3e27d2604b
    Gx := 0x6b17d1f2e12c4247f8bce6e563a440f277037d812deb33a0f4a13945d898c296
    Gy := 0x4fe342e2fe1a7f9b8ee7eb4a7c0f9e162bce33576b315ececbb6406837bf51f5
    n := 0xffffffff00000000ffffffffffffffffbce6faada7179e84f3b9cac2fc632551
    h := 1 }

/-- `SECP256K1`. -/
def SECP256K1 : Curve :=
  { name := "secp256k1"
    p := 0xFFFFFFFFFFFFFFFFFFFFFFFFFFFFFFFFFFFFFFFFFFFFFFFFFFFFFFFEFFFFFC2F
    a := 0
    b := 7
    Gx := 0x79BE667EF9DCBBAC55A06295CE870B07029BFCDB2DCE28D959F2815B16F81798
    Gy := 0x483ADA7726A3C4655DA4FBFC0E1108A8FD17B448A68554199C47D08FFB10D4B8
    n := 0xFFFFFFFFFFFFFFFFFFFFFFFFFFFFFFFEBAAEDCE6AF48A03BBFD25E8CD0364141
    h := 1 }

/-- `def G(curve): return Point(curve, curve.Gx, curve.Gy)` — constructs (and
validates) the base point. -/
def G (c : Curve) : Except Err Point := mkPoint c c.Gx c.Gy

/-! ## `ecdsa.py`: byte/integer conversions -/

/-- `int.from_bytes(b, 'big')`. -/
def bytesToNat (b : List Nat) : Nat := b.foldl (fun acc d => acc * 256 + d) 0

/-- Python `int.bit_length()` for nonnegative integers, fuel-structural
(`bitLenAux fuel n` is exact whenever `fuel ≥ n`). -/
def bitLenAux : Nat → Nat → Nat
  | _, 0 => 0
  | 0, _ + 1 => 0
  | fuel + 1, k => bitLenAux fuel (k / 2) + 1

/-- `n.bit_length()`. -/
def bitLen (n : Nat) : Nat := bitLenAux n n

/-- `def bits2int(b, qlen, n)`: big-endian conversion, truncation of excess
low bits beyond `qlen`, then — unlike RFC 6979 — a final reduction `% n`. -/
def bits2int (b : List Nat) (qlen n : Nat) : Nat :=
  let i := bytesToNat b
  let blen := 8 * b.length
  let i := if qlen < blen then i >>> (blen - qlen) else i
  i % n

/-- `def int2octets(x, rolen): return x.to_bytes(rolen, 'big')`.  Defined for
`0 ≤ x < 256^rolen`; Python raises `OverflowError` outside that range, which
no caller in the sources can trigger (both call sites pass values reduced
below `n ≤ 256^rolen`). -/
def int2octets (x rolen : Nat) : List Nat :=
  (List.range rolen).map (fun i => x / 256 ^ (rolen - 1 - i) % 256)

/-- `def bits2octets(b, n)`. -/
def bits2octets (b : List Nat) (n : Nat) : List Nat :=
  let z1 := bytesToNat b
  let z2 := z1 % n
  let qlen := bitLen n
  let rolen := (qlen + 7) / 8
  int2octets z2 rolen

/-- `hmac.new(key, msg, hashlib.sha256).digest()`: the RFC 2104 HMAC
construction over the abstract digest `sha`, with SHA-256's 64-byte block. -/
def hmac (sha : List Nat → List Nat) (key msg : List Nat) : List Nat :=
  let key := if 64 < key.length then sha key else key
  let key := key ++ List.replicate (64 - key.length) 0
  let opad := key.map (fun d => d ^^^ 0x5c)
  let ipad := key.map (fun d => d ^^^ 0x36)
  sha (opad ++ sha (ipad ++ msg))

/-! ## `ecdsa.py`: deterministic nonces (RFC 6979 pattern) -/

/-- The inner block-generation loop of `rfc6979_generate_k`:
`while len(T) < rolen: V = hmac(K, V); T += V`.  Returns the final `(V, T)`.
Fuel-out (possible only when `sha` keeps returning the empty string, where
Python would loop forever) yields `Err.fuel`. -/
def genT (sha : List Nat → List Nat) (K : List Nat) (rolen : Nat) :
    Nat → List Nat → List Nat → Except Err (List Nat × List Nat)
  | fuel, V, T =>
    if rolen ≤ T.length then .ok (V, T)
    else
      match fuel with
      | 0 => .error .fuel
      | fuel + 1 =>
        let V' := hmac sha K V
        genT sha K rolen fuel V' (T ++ V')

/-- The outer candidate loop of `rfc6979_generate_k`: generate `T`, convert
with `bits2int`, accept iff `1 ≤ k < n`, otherwise update `K, V` and retry. -/
def rfc6979Loop (sha : List Nat → List Nat) (n qlen rolen : Nat) :
    Nat → List Nat → List Nat → Except Err Nat
  | 0, _, _ => .error .fuel
  | fuel + 1, K, V => do
    let (V, T) ← genT sha K rolen rolen V []
    let k := bits2int T qlen n
    if 1 ≤ k ∧ k < n then .ok k
    else
      let K' := hmac sha K (V ++ [0x00])
      let V' := hmac sha K' V
      rfc6979Loop sha n qlen rolen fuel K' V'

/-- `def rfc6979_generate_k(priv, h1, n)`: seed `V = 0x01…01`, `K = 0x00…00`
(32 bytes each), two HMAC seeding rounds with separator bytes `0x00`/`0x01`,
then the candidate loop. -/
def rfc6979_generate_k (sha : List Nat → List Nat) (fuel : Nat)
    (priv : Nat) (h1 : List Nat) (n : Nat) : Except Err Nat :=
  let qlen := bitLen n
  let rolen := (qlen + 7) / 8
  let bx := int2octets priv rolen ++ bits2octets h1 n
  let V := List.replicate 32 0x01
  let K := List.replicate 32 0x00
  let K := hmac sha K (V ++ [0x00] ++ bx)
  let V := hmac sha K V
  let K := hmac sha K (V ++ [0x01] ++ bx)
  let V := hmac sha K V
  rfc6979Loop sha n qlen rolen fuel K V

/-- The claimed nonce generator, for comparison with the code's
`rfc6979_generate_k`.  Modelled from the spec: "repeatedly generate HMAC
output blocks …; convert to an integer and accept if `1 ≤ k < n`; otherwise
perform one more HMAC-based state update and retry", where, per the claim,
a candidate outside `[1, n)` is never "reduced into range and returned".
It differs from the code in exactly one place: the conversion truncates to
the curve-order bit length but performs no reduction `% n` (this is also
RFC 6979's own `bits2int`). -/
def bits2intClaim (b : List Nat) (qlen : Nat) : Nat :=
  let i := bytesToNat b
  let blen := 8 * b.length
  if qlen < blen then i >>> (blen - qlen) else i

/-- The candidate loop as the claim describes it (see `bits2intClaim`). -/
def rfc6979LoopClaim (sha : List Nat → List Nat) (n qlen rolen : Nat) :
    Nat → List Nat → List Nat → Except Err Nat
  | 0, _, _ => .error .fuel
  | fuel + 1, K, V => do
    let (V, T) ← genT sha K rolen rolen V []
    let k := bits2intClaim T qlen
    if 1 ≤ k ∧ k < n then .ok k
    else
      let K' := hmac sha K (V ++ [0x00])
      let V' := hmac sha K' V
      rfc6979LoopClaim sha n qlen rolen fuel K' V'

/-- The whole generator as the claim describes it. -/
def rfc6979_generate_k_claim (sha : List Nat → List Nat) (fuel : Nat)
    (priv : Nat) (h1 : List Nat) (n : Nat) : Except Err Nat :=
  let qlen := bitLen n
  let rolen := (qlen + 7) / 8
  let bx := int2octets priv rolen ++ bits2octets h1 n
  let V := List.replicate 32 0x01
  let K := List.replicate 32 0x00
  let K := hmac sha K (V ++ [0x00] ++ bx)
  let V := hmac sha K V
  let K := hmac sha K (V ++ [0x01] ++ bx)
  let V := hmac sha K V
  rfc6979LoopClaim sha n qlen rolen fuel K V

/-! ## `ecdsa.py`: signing and verification -/

/-- Python `pow(x, -1, n)`: the modular inverse in `[0, n)` when it exists,
a `ValueError` otherwise.  (The inverse in `[0, n)` is unique when it exists,
so exhaustive search returns exactly Python's value.) -/
def pyInvMod (x n : Nat) : Except Err Nat :=
  match (List.range n).find? (fun y => x * y % n = 1 % n) with
  | some y => .ok y
  | none => .error .noModInverse

/-- `def sign(priv, msg, curve)`: RFC 6979 nonce, `R = k·G`,
`r = R.x mod n` (retry on 0), `s = k⁻¹(e + r·priv) mod n` (retry on 0),
low-S normalization.  The source retries by re-invoking itself with identical
arguments; since everything is deterministic such a retry can only repeat, so
the fuel models the (non-)termination of that recursion.  `fuel + 1` is also
passed to the nonce generator's own loop. -/
def sign (sha : List Nat → List Nat) : Nat → Nat → List Nat → Curve → Except Err (Int × Int)
  | 0, _, _, _ => .error .fuel
  | fuel + 1, priv, msg, c => do
    let n := c.n
    let h1 := sha msg
    let k ← rfc6979_generate_k sha (fuel + 1) priv h1 n.toNat
    let g ← G c
    let R ← scalar_mult (k : Int) g
    match R.x with
    | none => .error .typeErr
    | some rx =>
      let r := rx % n
      if r = 0 then sign sha fuel priv msg c
      else do
        let kinv ← pyInvMod k n.toNat
        let e := bytesToNat h1 % n.toNat
        let s := kinv * (e + r.toNat * priv) % n.toNat
        if s = 0 then sign sha fuel priv msg c
        else
          let s := if n.toNat / 2 < s then n.toNat - s else s
          return (r, (s : Int))

/-- `def verify(pub, msg, sig)`: range check on `(r, s)`, then
`P = u1·G + u2·pub`; `False` on infinity, else compare `P.x mod n` with
`r`. -/
def verify (sha : List Nat → List Nat) (pub : Point) (msg : List Nat)
    (sig : Int × Int) : Except Err Bool := do
  let (r, s) := sig
  let n := pub.curve.n
  if ¬(1 ≤ r ∧ r < n ∧ 1 ≤ s ∧ s < n) then return false
  else do
    let e := bytesToNat (sha msg) % n.toNat
    let w ← pyInvMod s.toNat n.toNat
    let u1 := e * w % n.toNat
    let u2 := r.toNat * w % n.toNat
    let g ← G pub.curve
    let P1 ← scalar_mult (u1 : Int) g
    let P2 ← scalar_mult (u2 : Int) pub
    let P ← P1.add P2
    if P.is_infinity then return false
    else
      match P.x with
      | none => .error .typeErr
      | some px => return decide (px % n = r)

/-! ## `ecdsa.py`: key generation and the ambient entropy source

`secrets.randbelow` is the only consumer of randomness in the module.  The
embedding threads an explicit entropy stream through a state monad so that
(non-)dependence on randomness is expressible: `KeyPair.generate` draws from
the stream, `sign` does not. -/

/-- `secrets.randbelow(n)`: draw the next value from the ambient entropy
stream, reduced below `n`. -/
def randbelowM (n : Nat) : StateM (List Nat) Nat := do
  let s ← get
  match s with
  | [] => return 0
  | e :: rest => do
    set rest
    return e % n

/-- `KeyPair.generate(curve)`: rejection-sample `d` with `1 ≤ d < n`, then
`pub = d * G(curve)`.  The rejection loop carries fuel like every other
unbounded loop of the model. -/
def KeyPair.generate (c : Curve) : Nat → StateM (List Nat) (Except Err (Nat × Point))
  | 0 => return .error .fuel
  | fuel + 1 => do
    let d ← randbelowM c.n.toNat
    if 1 ≤ d ∧ (d : Int) < c.n then do
      match (do let g ← G c; scalar_mult (d : Int) g : Except Err Point) with
      | .error e => return .error e
      | .ok q => return .ok (d, q)
    else
      KeyPair.generate c fuel

/-- `sign` as a computation over the ambient entropy stream: its body never
draws from the stream (the source consults no randomness when signing). -/
def signM (sha : List Nat → List Nat) (fuel priv : Nat) (msg : List Nat)
    (c : Curve) : StateM (List Nat) (Except Err (Int × Int)) :=
  return sign sha fuel priv msg c

/-! ## `ecdh.py` -/

/-- `x.to_bytes((x.bit_length() + 7) // 8, 'big')` — minimal-length
big-endian encoding (the empty string for `x = 0`). -/
def natToBytesMin (x : Nat) : List Nat := int2octets x ((bitLen x + 7) / 8)

/-- `def kdf_sha256(x): return hashlib.sha256(x).digest()` — the KDF is a
single invocation of the digest capability. -/
def kdf_sha256 (sha : List Nat → List Nat) (x : List Nat) : List Nat := sha x

/-- `def ecdh_shared_secret(priv, peer_pub)`. -/
def ecdh_shared_secret (sha : List Nat → List Nat) (priv : Int)
    (peer_pub : Point) : Except Err (List Nat) :=
  if ¬(1 ≤ priv ∧ priv < peer_pub.curve.n) then .error .invalidScalar
  else do
    let S ← scalar_mult priv peer_pub
    if S.is_infinity then .error .invalidSharedPoint
    else
      match S.x with
      | none => .error .typeErr
      | some sx => return kdf_sha256 sha (natToBytesMin sx.toNat)

/-! ## Semantic anchor: the Weierstrass group over `ZMod q`

A curve record `c` with `c.p = q` (an odd prime) determines a short
Weierstrass curve over the field `ZMod q`; valid nonsingular stored points
correspond to nonsingular rational points, and the chord-tangent code above
is shown to implement the Mathlib group law through the relation `PtRep`. -/

/-- The Weierstrass curve over `ZMod q` described by a curve record. -/
def toW (c : Curve) (q : ℕ) : WeierstrassCurve.Affine (ZMod q) :=
  { a₁ := 0, a₂ := 0, a₃ := 0, a₄ := (c.a : ZMod q), a₆ := (c.b : ZMod q) }

/-- Validity of a stored point: the constructor invariant of `Point`
(coordinates normalized into `[0, p)` and on the curve), or infinity. -/
def Point.validB (P : Point) : Bool :=
  match P.x, P.y with
  | none, none => true
  | some x, some y =>
    decide (0 ≤ x) && decide (x < P.curve.p) && decide (0 ≤ y) &&
      decide (y < P.curve.p) && decide (curveEq P.curve x y)
  | _, _ => false

/-- Nonsingularity of a stored affine point, phrased over the integers:
not both partial derivatives `3x² + a` and `2y` vanish mod `p`.  (Infinity is
regarded as nonsingular.) -/
def Point.nsB (P : Point) : Bool :=
  match P.x, P.y with
  | none, none => true
  | some x, some y =>
    decide ((3 * x ^ 2 + P.curve.a) % P.curve.p ≠ 0) ||
      decide ((2 * y) % P.curve.p ≠ 0)
  | _, _ => false

/-- `PtRep q c P A`: the stored point `P` lives on the curve record `c` and
denotes the nonsingular rational point `A` of the Weierstrass curve
`toW c q`. -/
def PtRep (q : ℕ) (c : Curve) (P : Point) (A : (toW c q).Point) : Prop :=
  P.curve = c ∧
  match P.x, P.y with
  | none, none => A = 0
  | some x, some y =>
    0 ≤ x ∧ x < c.p ∧ 0 ≤ y ∧ y < c.p ∧
    ∃ h : (toW c q).Nonsingular ((x : ZMod q)) ((y : ZMod q)),
      A = WeierstrassCurve.Affine.Point.some h
  | _, _ => False

@[simp] lemma toW_a₁ (c : Curve) (q : ℕ) : (toW c q).a₁ = 0 := rfl
@[simp] lemma toW_a₂ (c : Curve) (q : ℕ) : (toW c q).a₂ = 0 := rfl
@[simp] lemma toW_a₃ (c : Curve) (q : ℕ) : (toW c q).a₃ = 0 := rfl
@[simp] lemma toW_a₄ (c : Curve) (q : ℕ) : (toW c q).a₄ = (c.a : ZMod q) := rfl
@[simp] lemma toW_a₆ (c : Curve) (q : ℕ) : (toW c q).a₆ = (c.b : ZMod q) := rfl

section Bridge

variable {q : ℕ} [Fact q.Prime] {c : Curve}

lemma qpos : (0 : Int) < (q : Int) := by exact_mod_cast (Fact.out : q.Prime).pos

/-- Casting an integer reduced mod `q` into `ZMod q` forgets the reduction. -/
lemma castMod (a : Int) : ((a % (q : Int) : Int) : ZMod q) = (a : ZMod q) := by
  exact_mod_cast ZMod.intCast_mod a q

lemma castZero_iff (a : Int) : ((a : Int) : ZMod q) = 0 ↔ a % (q : Int) = 0 := by
  rw [ZMod.intCast_zmod_eq_zero_iff_dvd, Int.dvd_iff_emod_eq_zero]

lemma castInj {a b : Int} (ha0 : 0 ≤ a) (ha1 : a < (q : Int)) (hb0 : 0 ≤ b)
    (hb1 : b < (q : Int)) (h : (a : ZMod q) = (b : ZMod q)) : a = b := by
  have hd : ((a - b : Int) : ZMod q) = 0 := by push_cast; rw [h]; ring
  rw [castZero_iff] at hd
  have hdvd : (q : Int) ∣ a - b := Int.dvd_iff_emod_eq_zero.mpr hd
  have h0 : a - b = 0 := Int.eq_zero_of_abs_lt_dvd hdvd (by rw [abs_lt]; omega)
  omega

/-- Fermat inversion: `a ^ (q - 2) = a⁻¹` in `ZMod q` for `a ≠ 0`. -/
lemma powCardSubTwo (a : ZMod q) (ha : a ≠ 0) : a ^ (q - 2) = a⁻¹ := by
  have h2 : 2 ≤ q := (Fact.out : q.Prime).two_le
  apply eq_inv_of_mul_eq_one_left
  have h : a ^ (q - 2) * a = a ^ (q - 1) := by
    rw [← pow_succ]
    congr 1
    omega
  rw [h]
  exact ZMod.pow_card_sub_one_eq_one ha

/-- Casts of the `PrimeField` operations of the curve's field. -/
lemma cast_Fadd (hp : c.p = (q : Int)) (a b : Int) :
    ((c.F.add a b : Int) : ZMod q) = (a : ZMod q) + b := by
  show (((a + b) % c.p : Int) : ZMod q) = _
  rw [hp, castMod]
  push_cast
  ring

lemma cast_Fsub (hp : c.p = (q : Int)) (a b : Int) :
    ((c.F.sub a b : Int) : ZMod q) = (a : ZMod q) - b := by
  show (((a - b) % c.p : Int) : ZMod q) = _
  rw [hp, castMod]
  push_cast
  ring

lemma cast_Fmul (hp : c.p = (q : Int)) (a b : Int) :
    ((c.F.mul a b : Int) : ZMod q) = (a : ZMod q) * b := by
  show (((a * b) % c.p : Int) : ZMod q) = _
  rw [hp, castMod]
  push_cast
  ring

lemma cast_Fneg (hp : c.p = (q : Int)) (a : Int) :
    ((c.F.neg a : Int) : ZMod q) = -(a : ZMod q) := by
  show (((-a) % c.p : Int) : ZMod q) = _
  rw [hp, castMod]
  push_cast
  ring

lemma cast_Fpow (hp : c.p = (q : Int)) (a : Int) (e : Nat) :
    ((c.F.pow a e : Int) : ZMod q) = (a : ZMod q) ^ e := by
  show (((a ^ e) % c.p : Int) : ZMod q) = _
  rw [hp, castMod]
  push_cast
  ring

/-- `PrimeField.inv` succeeds on any element not divisible by `p` and computes
the field inverse. -/
lemma Finv_ok (hp : c.p = (q : Int)) {a : Int} (ha : ((a : Int) : ZMod q) ≠ 0) :
    ∃ r, c.F.inv a = .ok r ∧ ((r : Int) : ZMod q) = (a : ZMod q)⁻¹ := by
  have hmod : ¬ a % c.F.p = 0 := by
    show ¬ a % c.p = 0
    rw [hp]
    intro h0
    exact ha ((castZero_iff a).mpr h0)
  refine ⟨c.F.pow a (c.F.p - 2).toNat, ?_, ?_⟩
  · unfold PrimeField.inv
    rw [if_neg hmod]
  · rw [cast_Fpow hp]
    have h2 : 2 ≤ q := (Fact.out : q.Prime).two_le
    have he : (c.F.p - 2).toNat = q - 2 := by
      show (c.p - 2).toNat = q - 2
      rw [hp]
      omega
    rw [he]
    exact powCardSubTwo _ ha

/-- `PrimeField.div` succeeds for a nonzero divisor and computes the field
division. -/
lemma Fdiv_ok (hp : c.p = (q : Int)) (a : Int) {b : Int}
    (hb : ((b : Int) : ZMod q) ≠ 0) :
    ∃ r, c.F.div a b = .ok r ∧ ((r : Int) : ZMod q) = (a : ZMod q) / b := by
  obtain ⟨i, hi, hic⟩ := Finv_ok hp (a := b) hb
  refine ⟨c.F.mul a i, ?_, ?_⟩
  · unfold PrimeField.div
    rw [hi]
    rfl
  · rw [cast_Fmul hp, hic, div_eq_mul_inv]

/-- The constructor's on-curve test is the Weierstrass equation of
`toW c q`. -/
lemma curveEq_iff (hp : c.p = (q : Int)) (x y : Int) :
    curveEq c x y ↔ (toW c q).Equation ((x : ZMod q)) ((y : ZMod q)) := by
  rw [WeierstrassCurve.Affine.equation_iff]
  show c.F.pow y 2 = (c.F.pow x 3 + c.F.mul c.a x + c.b) % c.F.p ↔ _
  have hq0 : (0 : Int) < (q : Int) := qpos
  have hFp : c.F.p = (q : Int) := hp
  simp only [toW_a₁, toW_a₂, toW_a₃, toW_a₄, toW_a₆]
  constructor
  · intro h
    have hc := congrArg (fun t : Int => ((t : Int) : ZMod q)) h
    simp only at hc
    rw [cast_Fpow hp, hFp, castMod] at hc
    push_cast at hc
    rw [cast_Fpow hp, cast_Fmul hp] at hc
    rw [hc]
    ring
  · intro h
    have hl : ((c.F.pow y 2 : Int) : ZMod q) =
        (((c.F.pow x 3 + c.F.mul c.a x + c.b) % c.F.p : Int) : ZMod q) := by
      rw [cast_Fpow hp, hFp, castMod]
      push_cast
      rw [cast_Fpow hp, cast_Fmul hp]
      linear_combination h
    refine castInj ?_ ?_ ?_ ?_ hl
    · exact Int.emod_nonneg _ (by rw [hFp]; omega)
    · rw [show c.F.pow y 2 = (y ^ 2) % c.F.p from rfl, hFp]
      exact Int.emod_lt_of_pos _ (by omega)
    · exact Int.emod_nonneg _ (by rw [hFp]; omega)
    · rw [hFp]
      exact Int.emod_lt_of_pos _ (by omega)

/-- Transfer of the integer-level nonsingularity test. -/
lemma ns_transfer (hp : c.p = (q : Int)) {x y : Int}
    (heq : (toW c q).Equation ((x : ZMod q)) ((y : ZMod q)))
    (hns : (3 * x ^ 2 + c.a) % c.p ≠ 0 ∨ (2 * y) % c.p ≠ 0) :
    (toW c q).Nonsingular ((x : ZMod q)) ((y : ZMod q)) := by
  rw [WeierstrassCurve.Affine.nonsingular_iff']
  refine ⟨heq, ?_⟩
  rcases hns with h | h
  · left
    intro h0
    apply h
    rw [hp]
    apply (castZero_iff _).mp
    simp only [toW_a₁, toW_a₂, toW_a₃, toW_a₄, toW_a₆] at h0
    push_cast
    linear_combination -h0
  · right
    intro h0
    apply h
    rw [hp]
    apply (castZero_iff _).mp
    simp only [toW_a₁, toW_a₂, toW_a₃, toW_a₄, toW_a₆] at h0
    push_cast
    linear_combination h0

/-- Proof-irrelevant congruence for `Point.some`. -/
lemma Wsome_congr {F : Type} [Field F] {W : WeierstrassCurve.Affine F}
    {x y x' y' : F} (hx : x = x') (hy : y = y') (h : W.Nonsingular x y)
    (h' : W.Nonsingular x' y') :
    WeierstrassCurve.Affine.Point.some h = WeierstrassCurve.Affine.Point.some h' := by
  subst hx
  subst hy
  rfl

/-- `mkPoint` succeeds on solutions of the Weierstrass equation, and the
result represents the given nonsingular rational point. -/
lemma mkPoint_rep (hp : c.p = (q : Int)) {x y : Int}
    (hns : (toW c q).Nonsingular ((x : ZMod q)) ((y : ZMod q))) :
    ∃ P, mkPoint c x y = .ok P ∧
      PtRep q c P (WeierstrassCurve.Affine.Point.some hns) := by
  have hq0 : (0 : Int) < (q : Int) := qpos
  have hFp : c.F.p = (q : Int) := hp
  have hcx : ((x % c.F.p : Int) : ZMod q) = (x : ZMod q) := by rw [hFp, castMod]
  have hcy : ((y % c.F.p : Int) : ZMod q) = (y : ZMod q) := by rw [hFp, castMod]
  have heq : curveEq c (x % c.F.p) (y % c.F.p) := by
    rw [curveEq_iff hp, hcx, hcy]
    exact hns.1
  refine ⟨⟨c, some (x % c.F.p), some (y % c.F.p)⟩, ?_, ?_⟩
  · unfold mkPoint
    rw [if_pos heq]
  · refine ⟨rfl, ?_⟩
    show 0 ≤ x % c.F.p ∧ _
    refine ⟨Int.emod_nonneg _ (by rw [hFp]; omega),
      by rw [hFp, hp]; exact Int.emod_lt_of_pos _ (by omega),
      Int.emod_nonneg _ (by rw [hFp]; omega),
      by rw [hFp, hp]; exact Int.emod_lt_of_pos _ (by omega), ?_⟩
    rw [hcx, hcy]
    exact ⟨hns, rfl⟩

/-- `negY` of the embedded curve is plain negation (short Weierstrass). -/
lemma toW_negY (x y : ZMod q) : (toW c q).negY x y = -y := by
  simp [WeierstrassCurve.Affine.negY]

/-! ### Unfolding lemmas for `Point.add` at constructor shapes -/

lemma add_inf_left (c : Curve) (Q : Point) (hc : Q.curve = c) :
    Point.add (Point.infinity c) Q = .ok Q := by
  unfold Point.add
  rw [if_neg (by simp [Point.infinity, hc])]
  rfl

lemma add_inf_right (c : Curve) (x y : Int) :
    Point.add ⟨c, some x, some y⟩ (Point.infinity c) = .ok ⟨c, some x, some y⟩ := by
  unfold Point.add
  rw [if_neg (by simp [Point.infinity])]
  rfl

lemma add_affine (c : Curve) (x₁ y₁ x₂ y₂ : Int) :
    Point.add ⟨c, some x₁, some y₁⟩ ⟨c, some x₂, some y₂⟩ =
      (if x₁ = x₂ ∧ (y₁ ≠ y₂ ∨ y₁ = 0) then .ok (Point.infinity c)
       else do
         let s ←
           if x₁ = x₂ ∧ y₁ = y₂ then
             c.F.div (c.F.add (c.F.mul 3 (c.F.pow x₁ 2)) c.a) (c.F.mul 2 y₁)
           else
             c.F.div (c.F.sub y₂ y₁) (c.F.sub x₂ x₁)
         let x3 := c.F.sub (c.F.sub (c.F.pow s 2) x₁) x₂
         let y3 := c.F.sub (c.F.mul s (c.F.sub x₁ x3)) y₁
         mkPoint c x3 y3) := by
  unfold Point.add
  rw [if_neg (by simp)]
  rfl

lemma rep_infinity : PtRep q c (Point.infinity c) 0 := ⟨rfl, rfl⟩

lemma rep_curve {P : Point} {A : (toW c q).Point} (h : PtRep q c P A) : P.curve = c := h.1

lemma rep_unique {P : Point} {A B : (toW c q).Point} (hA : PtRep q c P A)
    (hB : PtRep q c P B) : A = B := by
  obtain ⟨pc, px, py⟩ := P
  obtain ⟨hc, hA⟩ := hA
  obtain ⟨-, hB⟩ := hB
  cases px with
  | none =>
    cases py with
    | none => exact hA.trans hB.symm
    | some y => exact absurd hA (by simp [PtRep])
  | some x =>
    cases py with
    | none => exact absurd hA (by simp [PtRep])
    | some y =>
      obtain ⟨-, -, -, -, h₁, rfl⟩ := hA
      obtain ⟨-, -, -, -, h₂, rfl⟩ := hB
      exact Wsome_congr rfl rfl h₁ h₂

lemma rep_inf_shape {A : (toW c q).Point} {P : Point} (h : PtRep q c P A)
    (hA : A = 0) : P = Point.infinity c := by
  obtain ⟨pc, px, py⟩ := P
  obtain ⟨hc, hm⟩ := h
  subst hc
  subst hA
  cases px with
  | none =>
    cases py with
    | none => rfl
    | some y => exact absurd hm (by simp)
  | some x =>
    cases py with
    | none => exact absurd hm (by simp)
    | some y =>
      obtain ⟨-, -, -, -, h₁, hz⟩ := hm
      exact absurd hz.symm (WeierstrassCurve.Affine.Point.some_ne_zero h₁)

lemma rep_affine_shape {P : Point} {x y : ZMod q}
    {hns : (toW c q).Nonsingular x y}
    (h : PtRep q c P (WeierstrassCurve.Affine.Point.some hns)) :
    ∃ a b : Int, P = ⟨c, some a, some b⟩ ∧ 0 ≤ a ∧ a < c.p ∧ 0 ≤ b ∧ b < c.p ∧
      ((a : ZMod q)) = x ∧ ((b : ZMod q)) = y := by
  obtain ⟨pc, px, py⟩ := P
  obtain ⟨hc, hm⟩ := h
  subst hc
  cases px with
  | none =>
    cases py with
    | none =>
      exact absurd hm (WeierstrassCurve.Affine.Point.some_ne_zero hns)
    | some b => exact absurd hm (by simp)
  | some a =>
    cases py with
    | none => exact absurd hm (by simp)
    | some b =>
      obtain ⟨h1, h2, h3, h4, h₁, heq⟩ := hm
      obtain ⟨hx, hy⟩ := WeierstrassCurve.Affine.Point.some.inj heq.symm
      exact ⟨a, b, rfl, h1, h2, h3, h4, hx, hy⟩

lemma rep_point_unique (hp : c.p = (q : Int)) {P Q : Point} {A : (toW c q).Point}
    (hP : PtRep q c P A) (hQ : PtRep q c Q A) : P = Q := by
  cases A with
  | zero =>
    rw [rep_inf_shape hP rfl, rep_inf_shape hQ rfl]
  | some hns =>
    obtain ⟨a, b, rfl, ha0, ha1, hb0, hb1, hax, hby⟩ := rep_affine_shape hP
    obtain ⟨a', b', rfl, ha0', ha1', hb0', hb1', hax', hby'⟩ := rep_affine_shape hQ
    have h1 : a = a' :=
      castInj ha0 (hp ▸ ha1) ha0' (hp ▸ ha1') (hax.trans hax'.symm)
    have h2 : b = b' :=
      castInj hb0 (hp ▸ hb1) hb0' (hp ▸ hb1') (hby.trans hby'.symm)
    rw [h1, h2]

/-- A represented point is at infinity exactly when it denotes `0`. -/
lemma rep_not_inf {P : Point} {A : (toW c q).Point} (h : PtRep q c P A)
    (hA : A ≠ 0) : P.is_infinity = false := by
  cases A with
  | zero => exact absurd rfl hA
  | some hns =>
    obtain ⟨a, b, rfl, -⟩ := rep_affine_shape h
    simp [Point.is_infinity]

lemma rep_inf_iff {P : Point} {A : (toW c q).Point} (h : PtRep q c P A) :
    P.is_infinity = true ↔ A = 0 := by
  constructor
  · intro hi
    cases A with
    | zero => rfl
    | some hns =>
      obtain ⟨a, b, rfl, -⟩ := rep_affine_shape h
      simp [Point.is_infinity] at hi
  · intro hz
    rw [rep_inf_shape h hz]
    simp [Point.is_infinity, Point.infinity]

/-- Build the denotation of a stored point from the decidable validity and
nonsingularity checks. -/
lemma rep_of_valid (hp : c.p = (q : Int)) {P : Point} (hc : P.curve = c)
    (hv : P.validB = true) (hns : P.nsB = true) : ∃ A, PtRep q c P A := by
  obtain ⟨pc, px, py⟩ := P
  have hc' : pc = c := hc
  cases px with
  | none =>
    cases py with
    | none => exact ⟨0, hc', rfl⟩
    | some y => exact absurd hv (by simp [Point.validB])
  | some x =>
    cases py with
    | none => exact absurd hv (by simp [Point.validB])
    | some y =>
      simp only [Point.validB, Bool.and_eq_true, decide_eq_true_eq] at hv
      rw [hc'] at hv hns
      obtain ⟨⟨⟨⟨h0, h1⟩, h2⟩, h3⟩, heqn⟩ := hv
      simp only [Point.nsB, Bool.or_eq_true, decide_eq_true_eq] at hns
      have heq : (toW c q).Equation ((x : ZMod q)) ((y : ZMod q)) :=
        (curveEq_iff hp x y).mp heqn
      have hns' := ns_transfer hp heq hns
      exact ⟨WeierstrassCurve.Affine.Point.some hns', hc', h0, h1, h2, h3, hns', rfl⟩

/-- Negation bridge: `Point.__neg__` succeeds on represented points and
represents group negation. -/
lemma neg_rep (hp : c.p = (q : Int)) {P : Point} {A : (toW c q).Point}
    (hP : PtRep q c P A) : ∃ Pn, P.neg = .ok Pn ∧ PtRep q c Pn (-A) := by
  cases A with
  | zero =>
    have hPi := rep_inf_shape hP rfl
    subst hPi
    refine ⟨Point.infinity c, ?_, ?_⟩
    · unfold Point.neg
      rw [if_pos (by simp [Point.is_infinity, Point.infinity])]
    · show PtRep q c (Point.infinity c) (-0)
      rw [neg_zero]
      exact rep_infinity
  | some hns =>
    obtain ⟨a, b, rfl, ha0, ha1, hb0, hb1, hax, hby⟩ := rep_affine_shape hP
    have hcast : ((c.F.neg b : Int) : ZMod q) = -((b : Int) : ZMod q) := cast_Fneg hp b
    have hns2 : (toW c q).Nonsingular ((a : Int) : ZMod q) ((c.F.neg b : Int) : ZMod q) := by
      rw [hcast, hax, hby, ← toW_negY]
      exact WeierstrassCurve.Affine.nonsingular_neg hns
    obtain ⟨Pn, hmk, hrep⟩ := mkPoint_rep hp hns2
    refine ⟨Pn, ?_, ?_⟩
    · unfold Point.neg
      rw [if_neg (by simp [Point.is_infinity])]
      exact hmk
    · have hAB : (-WeierstrassCurve.Affine.Point.some hns) =
          WeierstrassCurve.Affine.Point.some hns2 := by
        rw [WeierstrassCurve.Affine.Point.neg_some]
        exact Wsome_congr (by rw [hax]) (by rw [hcast, hby, toW_negY]) _ _
      rw [hAB]
      exact hrep

/-- The central bridge: `Point.__add__` of two represented points on a curve
over an odd prime field succeeds and represents the Mathlib group addition. -/
lemma add_rep (hp : c.p = (q : Int)) (hq2 : q ≠ 2) {P Q : Point}
    {A B : (toW c q).Point} (hP : PtRep q c P A) (hQ : PtRep q c Q B) :
    ∃ R, P.add Q = .ok R ∧ PtRep q c R (A + B) := by
  have hqpos : (0 : Int) < (q : Int) := qpos
  have h2ne : (2 : ZMod q) ≠ 0 := by
    intro h0
    have hd : q ∣ 2 := (CharP.cast_eq_zero_iff (ZMod q) q 2).mp (by exact_mod_cast h0)
    have hle := Nat.le_of_dvd (by norm_num) hd
    have h2le : 2 ≤ q := (Fact.out : q.Prime).two_le
    omega
  cases A with
  | zero =>
    have hPi := rep_inf_shape hP rfl
    subst hPi
    refine ⟨Q, ?_, ?_⟩
    · exact add_inf_left c Q (rep_curve hQ)
    · rw [WeierstrassCurve.Affine.Point.zero_def, zero_add]
      exact hQ
  | some h₁ =>
    obtain ⟨x₁, y₁, rfl, hx₁0, hx₁1, hy₁0, hy₁1, hax₁, hay₁⟩ := rep_affine_shape hP
    cases B with
    | zero =>
      have hQi := rep_inf_shape hQ rfl
      subst hQi
      refine ⟨⟨c, some x₁, some y₁⟩, ?_, ?_⟩
      · exact add_inf_right c x₁ y₁
      · rw [WeierstrassCurve.Affine.Point.zero_def, add_zero]
        exact hP
    | some h₂ =>
      obtain ⟨x₂, y₂, rfl, hx₂0, hx₂1, hy₂0, hy₂1, hax₂, hay₂⟩ := rep_affine_shape hQ
      subst hax₁
      subst hay₁
      subst hax₂
      subst hay₂
      rw [show Point.add ⟨c, some x₁, some y₁⟩ ⟨c, some x₂, some y₂⟩ =
        _ from add_affine c x₁ y₁ x₂ y₂]
      -- coordinate casts, named for reuse
      have hy₁ne0iff : ((y₁ : Int) : ZMod q) = 0 ↔ y₁ = 0 := by
        constructor
        · intro h
          exact castInj hy₁0 (hp ▸ hy₁1) le_rfl hqpos (by rw [h]; norm_num)
        · intro h
          rw [h]
          norm_num
      have hxeq_iff : ((x₁ : Int) : ZMod q) = ((x₂ : Int) : ZMod q) ↔ x₁ = x₂ := by
        constructor
        · exact castInj hx₁0 (hp ▸ hx₁1) hx₂0 (hp ▸ hx₂1)
        · intro h
          rw [h]
      have hyeq_iff : ((y₁ : Int) : ZMod q) = ((y₂ : Int) : ZMod q) ↔ y₁ = y₂ := by
        constructor
        · exact castInj hy₁0 (hp ▸ hy₁1) hy₂0 (hp ▸ hy₂1)
        · intro h
          rw [h]
      by_cases hc1 : x₁ = x₂ ∧ (y₁ ≠ y₂ ∨ y₁ = 0)
      · -- vertical case: the sum is the point at infinity
        rw [if_pos hc1]
        have hx : ((x₁ : Int) : ZMod q) = ((x₂ : Int) : ZMod q) := hxeq_iff.mpr hc1.1
        have hyd := WeierstrassCurve.Affine.Y_eq_of_X_eq h₁.1 h₂.1 hx
        have hy : ((y₁ : Int) : ZMod q) = (toW c q).negY ((x₂ : Int) : ZMod q)
            ((y₂ : Int) : ZMod q) := by
          rw [toW_negY]
          rcases hc1.2 with hne | h0
          · rcases hyd with hyy | hyn
            · exact absurd (hyeq_iff.mp hyy) hne
            · rw [hyn, toW_negY]
          · rcases hyd with hyy | hyn
            · have hz1 : ((y₁ : Int) : ZMod q) = 0 := hy₁ne0iff.mpr h0
              rw [← hyy, hz1, neg_zero]
            · rw [hyn, toW_negY]
        have hAB : WeierstrassCurve.Affine.Point.some h₁ +
            WeierstrassCurve.Affine.Point.some h₂ = 0 :=
          WeierstrassCurve.Affine.Point.add_of_Y_eq hx hy
        rw [hAB]
        exact ⟨Point.infinity c, rfl, rep_infinity⟩
      · -- sloped case
        rw [if_neg hc1]
        have hxy : ∀ _ : ((x₁ : Int) : ZMod q) = ((x₂ : Int) : ZMod q),
            ((y₁ : Int) : ZMod q) ≠ (toW c q).negY ((x₂ : Int) : ZMod q)
              ((y₂ : Int) : ZMod q) := by
          intro hx hy
          have hxx : x₁ = x₂ := hxeq_iff.mp hx
          have hyy : y₁ = y₂ ∧ y₁ ≠ 0 := by
            rcases Decidable.em (y₁ = y₂) with h | h
            · refine ⟨h, ?_⟩
              intro h0
              exact hc1 ⟨hxx, Or.inr h0⟩
            · exact absurd ⟨hxx, Or.inl h⟩ hc1
          rw [toW_negY] at hy
          have h2y : (2 : ZMod q) * ((y₁ : Int) : ZMod q) = 0 := by
            have := hyeq_iff.mpr hyy.1
            rw [two_mul]
            nth_rewrite 2 [this]
            rw [hy]
            ring
          rcases mul_eq_zero.mp h2y with h | h
          · exact h2ne h
          · exact hyy.2 (hy₁ne0iff.mp h)
        set L := (toW c q).slope ((x₁ : Int) : ZMod q) ((x₂ : Int) : ZMod q)
          ((y₁ : Int) : ZMod q) ((y₂ : Int) : ZMod q) with hLdef
        -- the common tail after the slope has been computed
        have htail : ∀ s : Int, ((s : Int) : ZMod q) = L →
            ∃ R, mkPoint c (c.F.sub (c.F.sub (c.F.pow s 2) x₁) x₂)
              (c.F.sub (c.F.mul s (c.F.sub x₁ (c.F.sub (c.F.sub (c.F.pow s 2) x₁) x₂))) y₁)
                = .ok R ∧
              PtRep q c R (WeierstrassCurve.Affine.Point.some h₁ +
                WeierstrassCurve.Affine.Point.some h₂) := by
          intro s hsc
          set x₃ := c.F.sub (c.F.sub (c.F.pow s 2) x₁) x₂ with hx₃def
          set y₃ := c.F.sub (c.F.mul s (c.F.sub x₁ x₃)) y₁ with hy₃def
          have hx₃c : ((x₃ : Int) : ZMod q) =
              (toW c q).addX ((x₁ : Int) : ZMod q) ((x₂ : Int) : ZMod q) L := by
            rw [hx₃def, cast_Fsub hp, cast_Fsub hp, cast_Fpow hp, hsc]
            simp only [WeierstrassCurve.Affine.addX, toW_a₁, toW_a₂]
            ring
          have hy₃c : ((y₃ : Int) : ZMod q) =
              (toW c q).addY ((x₁ : Int) : ZMod q) ((x₂ : Int) : ZMod q)
                ((y₁ : Int) : ZMod q) L := by
            rw [hy₃def, cast_Fsub hp, cast_Fmul hp, cast_Fsub hp, hsc, hx₃c]
            simp only [WeierstrassCurve.Affine.addY, WeierstrassCurve.Affine.negAddY,
              WeierstrassCurve.Affine.negY, toW_a₁, toW_a₃]
            ring
          have hns₃ : (toW c q).Nonsingular ((x₃ : Int) : ZMod q) ((y₃ : Int) : ZMod q) := by
            rw [hx₃c, hy₃c]
            exact WeierstrassCurve.Affine.nonsingular_add h₁ h₂ hxy
          obtain ⟨R, hmk, hrep⟩ := mkPoint_rep hp hns₃
          refine ⟨R, hmk, ?_⟩
          have hAB : WeierstrassCurve.Affine.Point.some h₁ +
              WeierstrassCurve.Affine.Point.some h₂ =
              WeierstrassCurve.Affine.Point.some hns₃ := by
            rw [WeierstrassCurve.Affine.Point.add_of_imp hxy]
            exact Wsome_congr hx₃c.symm hy₃c.symm _ _
          rw [hAB]
          exact hrep
        by_cases hc2 : x₁ = x₂ ∧ y₁ = y₂
        · -- doubling branch
          have hy₁ne : y₁ ≠ 0 := by
            intro h0
            exact hc1 ⟨hc2.1, Or.inr h0⟩
          have hden : ((c.F.mul 2 y₁ : Int) : ZMod q) ≠ 0 := by
            rw [cast_Fmul hp]
            push_cast
            intro h0
            rcases mul_eq_zero.mp h0 with h | h
            · exact h2ne h
            · exact hy₁ne (hy₁ne0iff.mp h)
          obtain ⟨s, hs, hsc⟩ := Fdiv_ok hp (c.F.add (c.F.mul 3 (c.F.pow x₁ 2)) c.a) hden
          have hscL : ((s : Int) : ZMod q) = L := by
            rw [hsc]
            have hx : ((x₁ : Int) : ZMod q) = ((x₂ : Int) : ZMod q) := hxeq_iff.mpr hc2.1
            rw [hLdef, WeierstrassCurve.Affine.slope_of_Y_ne hx (hxy hx)]
            rw [cast_Fadd hp, cast_Fmul hp, cast_Fpow hp, toW_negY]
            simp only [toW_a₁, toW_a₂, toW_a₄]
            rw [cast_Fmul hp]
            push_cast
            ring_nf
          rw [if_pos hc2, hs]
          exact htail s hscL
        · -- chord branch
          have hxne : x₁ ≠ x₂ := by
            intro hxx
            rcases Decidable.em (y₁ = y₂) with h | h
            · exact hc2 ⟨hxx, h⟩
            · exact hc1 ⟨hxx, Or.inl h⟩
          have hxnec : ((x₁ : Int) : ZMod q) ≠ ((x₂ : Int) : ZMod q) := by
            intro h
            exact hxne (hxeq_iff.mp h)
          have hden : ((c.F.sub x₂ x₁ : Int) : ZMod q) ≠ 0 := by
            rw [cast_Fsub hp]
            intro h0
            exact hxnec (by linear_combination -h0)
          obtain ⟨s, hs, hsc⟩ := Fdiv_ok hp (c.F.sub y₂ y₁) hden
          have hscL : ((s : Int) : ZMod q) = L := by
            rw [hsc]
            rw [hLdef, WeierstrassCurve.Affine.slope_of_X_ne hxnec]
            rw [cast_Fsub hp, cast_Fsub hp]
            rw [show ((y₂ : Int) : ZMod q) - ((y₁ : Int) : ZMod q) =
              -(((y₁ : Int) : ZMod q) - ((y₂ : Int) : ZMod q)) by ring]
            rw [show ((x₂ : Int) : ZMod q) - ((x₁ : Int) : ZMod q) =
              -(((x₁ : Int) : ZMod q) - ((x₂ : Int) : ZMod q)) by ring]
            rw [neg_div_neg_eq]
          rw [if_neg hc2, hs]
          exact htail s hscL

/-! ### Scalar multiplication under representation -/

lemma ebind_ok {α β : Type} (a : α) (f : α → Except Err β) :
    (Except.ok a : Except Err α) >>= f = f a := rfl

lemma scalarLoop_zero (fuel : ℕ) (Q base : Point) : scalarLoop fuel Q base 0 = .ok Q := by
  cases fuel <;> rfl

lemma scalarLoop_succ (fuel : ℕ) (Q base : Point) (k : ℕ) :
    scalarLoop (fuel + 1) Q base (k + 1) =
      (do
        let Q' ← if (k + 1) % 2 = 1 then Q.add base else .ok Q
        let base' ← base.double
        scalarLoop fuel Q' base' ((k + 1) / 2)) := rfl

/-- Loop invariant of the double-and-add loop: starting from accumulator `Q`
and base `base`, the loop computes `Q + k • base` (and never runs out of fuel
when `fuel ≥ k`). -/
lemma scalarLoop_rep (hp : c.p = (q : Int)) (hq2 : q ≠ 2) :
    ∀ fuel k : ℕ, k ≤ fuel → ∀ {Q base : Point} {AQ Ab : (toW c q).Point},
      PtRep q c Q AQ → PtRep q c base Ab →
      ∃ R, scalarLoop fuel Q base k = .ok R ∧ PtRep q c R (AQ + k • Ab) := by
  intro fuel
  induction fuel with
  | zero =>
    intro k hk Q base AQ Ab hQ hb
    cases k with
    | zero =>
      rw [scalarLoop_zero]
      exact ⟨Q, rfl, by rw [zero_nsmul, add_zero]; exact hQ⟩
    | succ k' => omega
  | succ fuel ih =>
    intro k hk Q base AQ Ab hQ hb
    cases k with
    | zero =>
      rw [scalarLoop_zero]
      exact ⟨Q, rfl, by rw [zero_nsmul, add_zero]; exact hQ⟩
    | succ k' =>
      rw [scalarLoop_succ]
      obtain ⟨B2, hBe, hBr⟩ := add_rep hp hq2 hb hb
      by_cases hodd : (k' + 1) % 2 = 1
      · obtain ⟨Q', hQe, hQr⟩ := add_rep hp hq2 hQ hb
        rw [if_pos hodd, hQe, show base.double = base.add base from rfl, hBe]
        simp only [ebind_ok]
        obtain ⟨R, hRe, hRr⟩ := ih ((k' + 1) / 2) (by omega) hQr hBr
        refine ⟨R, hRe, ?_⟩
        have hks : k' + 1 = 1 + ((k' + 1) / 2 + (k' + 1) / 2) := by omega
        rw [hks, add_nsmul, add_nsmul, one_nsmul]
        have hgoal : AQ + Ab + ((k' + 1) / 2) • (Ab + Ab) =
            AQ + (Ab + (((k' + 1) / 2) • Ab + ((k' + 1) / 2) • Ab)) := by
          rw [nsmul_add]
          abel
        rw [← hgoal]
        exact hRr
      · rw [if_neg hodd, show base.double = base.add base from rfl, hBe]
        simp only [ebind_ok]
        obtain ⟨R, hRe, hRr⟩ := ih ((k' + 1) / 2) (by omega) hQ hBr
        refine ⟨R, hRe, ?_⟩
        have hks : k' + 1 = (k' + 1) / 2 + (k' + 1) / 2 := by omega
        rw [hks, add_nsmul]
        have hgoal : AQ + ((k' + 1) / 2) • (Ab + Ab) =
            AQ + (((k' + 1) / 2) • Ab + ((k' + 1) / 2) • Ab) := by
          rw [nsmul_add]
        rw [← hgoal]
        exact hRr

lemma scalar_mult_abs_rep (hp : c.p = (q : Int)) (hq2 : q ≠ 2) {P : Point}
    {A : (toW c q).Point} (hP : PtRep q c P A) (k : ℕ) :
    ∃ R, scalar_mult_abs k P = .ok R ∧ PtRep q c R (k • A) := by
  unfold scalar_mult_abs
  rw [rep_curve hP]
  obtain ⟨R, hRe, hRr⟩ := scalarLoop_rep hp hq2 k k le_rfl rep_infinity hP
  rw [zero_add] at hRr
  exact ⟨R, hRe, hRr⟩

lemma emod_zero_iff_neg (a n : Int) : (-a) % n = 0 ↔ a % n = 0 := by
  rw [← Int.dvd_iff_emod_eq_zero, ← Int.dvd_iff_emod_eq_zero, dvd_neg]

/-- `scalar_mult` computes the `ℤ`-scalar action on represented points,
whenever the early-return guard `k % n = 0` does not fire. -/
lemma scalar_mult_rep (hp : c.p = (q : Int)) (hq2 : q ≠ 2) {P : Point}
    {A : (toW c q).Point} (hP : PtRep q c P A) {k : Int}
    (hk : ¬ k % c.n = 0) :
    ∃ R, scalar_mult k P = .ok R ∧ PtRep q c R (k • A) := by
  unfold scalar_mult
  rw [rep_curve hP]
  by_cases hinf : P.is_infinity = true
  · rw [if_pos (Or.inr hinf)]
    have hA0 : A = 0 := (rep_inf_iff hP).mp hinf
    refine ⟨Point.infinity c, rfl, ?_⟩
    rw [hA0, zsmul_zero]
    exact rep_infinity
  · rw [if_neg (by push_neg; exact ⟨hk, hinf⟩)]
    by_cases hneg : k < 0
    · rw [if_pos hneg]
      obtain ⟨Pn, hPne, hPnr⟩ := neg_rep hp hP
      rw [hPne, ebind_ok, rep_curve hPnr]
      have hkneg : ¬ (-k) % c.n = 0 := by
        rw [emod_zero_iff_neg]
        exact hk
      have hAne : A ≠ 0 := fun h0 => hinf ((rep_inf_iff hP).mpr h0)
      have hPninf : Pn.is_infinity = false :=
        rep_not_inf hPnr (by rwa [neg_ne_zero])
      rw [if_neg (by push_neg; exact ⟨hkneg, by rw [hPninf]; simp⟩)]
      obtain ⟨R, hRe, hRr⟩ := scalar_mult_abs_rep hp hq2 hPnr (-k).toNat
      refine ⟨R, hRe, ?_⟩
      have hsm : ((-k).toNat : ℕ) • (-A) = k • A := by
        rw [← natCast_zsmul, Int.toNat_of_nonneg (by omega), neg_zsmul, zsmul_neg,
          neg_neg]
      rw [← hsm]
      exact hRr
    · rw [if_neg hneg]
      obtain ⟨R, hRe, hRr⟩ := scalar_mult_abs_rep hp hq2 hP k.toNat
      refine ⟨R, hRe, ?_⟩
      have hsm : (k.toNat : ℕ) • A = k • A := by
        rw [← natCast_zsmul, Int.toNat_of_nonneg (by omega)]
      rw [← hsm]
      exact hRr

/-- Reduction of `ℕ`-scalars modulo the order. -/
lemma nsmul_mod {A : (toW c q).Point} {nn : ℕ} (hA : nn • A = 0) (a : ℕ) :
    a • A = (a % nn) • A := by
  conv_lhs => rw [show a = nn * (a / nn) + a % nn from (Nat.div_add_mod a nn).symm]
  rw [add_nsmul, mul_nsmul, hA, nsmul_zero, zero_add]

/-- Reduction of `ℤ`-scalars modulo the order. -/
lemma zsmul_mod {A : (toW c q).Point} {nn : ℕ} (hA : nn • A = 0)
    (hn : c.n = (nn : Int)) (k : Int) : k • A = (k % c.n) • A := by
  have hz : c.n • A = 0 := by
    rw [hn, natCast_zsmul, hA]
  conv_lhs => rw [show k = c.n * (k / c.n) + k % c.n from (Int.ediv_add_emod k c.n).symm]
  rw [add_zsmul, mul_comm c.n (k / c.n), mul_zsmul, hz, zsmul_zero, zero_add]

end Bridge

/-! ### wNAF digit expansion: value and digit bounds -/

/-- Value of a digit list, least-significant digit first. -/
def digitsVal : List Int → Int
  | [] => 0
  | d :: rest => d + 2 * digitsVal rest

/-- Value of a digit list, most-significant digit first (the order in which
`wnaf_scalar_mult` consumes `reversed(naf)`). -/
def digitsValR : List Int → Int
  | [] => 0
  | d :: rest => d * 2 ^ rest.length + digitsValR rest

lemma digitsValR_append (l : List Int) (d : Int) :
    digitsValR (l ++ [d]) = 2 * digitsValR l + d := by
  induction l with
  | nil => simp [digitsValR]
  | cons x xs ih =>
    simp only [List.cons_append, digitsValR, ih, List.append_eq, List.length_append,
      List.length_cons, List.length_nil]
    ring

lemma digitsValR_reverse (l : List Int) : digitsValR l.reverse = digitsVal l := by
  induction l with
  | nil => rfl
  | cons d rest ih =>
    rw [List.reverse_cons, digitsValR_append, ih, digitsVal]
    ring

/-- A "good" wNAF digit: zero, or odd with magnitude below `2^(w-1)`. -/
def GoodDigit (w : ℕ) (d : Int) : Prop :=
  d = 0 ∨ (d.natAbs % 2 = 1 ∧ d.natAbs < 2 ^ (w - 1))

lemma wnafStep_spec {w : ℕ} (hw : 2 ≤ w) (k : ℕ) :
    GoodDigit w (wnafStep w k) ∧
    (1 ≤ k →
      2 * ((((k : Int) - wnafStep w k).toNat / 2 : ℕ) : Int) + wnafStep w k = (k : Int) ∧
      ((k : Int) - wnafStep w k).toNat / 2 < k) := by
  have hu : 1 ≤ 2 ^ (w - 2) := Nat.one_le_two_pow
  have h2 : 2 ^ (w - 1) = 2 * 2 ^ (w - 2) := by
    rw [← pow_succ']
    congr 1
    omega
  have h4 : 2 ^ w = 4 * 2 ^ (w - 2) := by
    rw [show (4 : ℕ) = 2 * 2 from rfl, mul_assoc, ← pow_succ', ← pow_succ']
    congr 1
    omega
  set u := 2 ^ (w - 2) with hudef
  have h4z : (2 : Int) ^ w = 4 * (u : Int) := by exact_mod_cast h4
  unfold wnafStep
  by_cases hodd : k % 2 = 1
  · rw [if_pos hodd]
    have hr1 : k % 2 ^ w < 2 ^ w := Nat.mod_lt _ (by positivity)
    have hr2 : k % 2 ^ w ≤ k := Nat.mod_le _ _
    have hr3 : k % 2 ^ w % 2 = 1 := by
      rw [Nat.mod_mod_of_dvd _ (dvd_pow_self 2 (by omega : w ≠ 0))]
      exact hodd
    set r := k % 2 ^ w with hrdef
    by_cases hbig : 2 ^ (w - 1) < r
    · rw [if_pos hbig]
      refine ⟨Or.inr ⟨?_, ?_⟩, fun hk1 => ⟨?_, ?_⟩⟩ <;> omega
    · rw [if_neg hbig]
      refine ⟨Or.inr ⟨?_, ?_⟩, fun hk1 => ⟨?_, ?_⟩⟩ <;> omega
  · rw [if_neg hodd]
    refine ⟨Or.inl rfl, fun hk1 => ⟨?_, ?_⟩⟩ <;> omega

lemma wnafDigits_zero (w fuel : ℕ) : wnafDigits w fuel 0 = [] := by
  cases fuel <;> rfl

lemma wnafDigits_succ (w fuel k : ℕ) :
    wnafDigits w (fuel + 1) (k + 1) =
      wnafStep w (k + 1) ::
        wnafDigits w fuel ((((k + 1 : ℕ) : Int) - wnafStep w (k + 1)).toNat / 2) := rfl

/-- With enough fuel, the digit expansion represents `k` exactly, with every
digit good. -/
lemma wnafDigits_spec {w : ℕ} (hw : 2 ≤ w) :
    ∀ fuel k : ℕ, k ≤ fuel →
      digitsVal (wnafDigits w fuel k) = (k : Int) ∧
      ∀ d ∈ wnafDigits w fuel k, GoodDigit w d := by
  intro fuel
  induction fuel with
  | zero =>
    intro k hk
    have hk0 : k = 0 := by omega
    subst hk0
    rw [wnafDigits_zero]
    exact ⟨rfl, by simp⟩
  | succ fuel ih =>
    intro k hk
    cases k with
    | zero =>
      rw [wnafDigits_zero]
      exact ⟨rfl, by simp⟩
    | succ k' =>
      rw [wnafDigits_succ]
      obtain ⟨hgood, hnext⟩ := wnafStep_spec hw (k' + 1)
      obtain ⟨hval, hlt⟩ := hnext (by omega)
      obtain ⟨ihval, ihgood⟩ := ih ((((k' + 1 : ℕ) : Int) - wnafStep w (k' + 1)).toNat / 2)
        (by omega)
      constructor
      · rw [digitsVal, ihval]
        omega
      · intro d hd
        rcases List.mem_cons.mp hd with h | h
        · rw [h]
          exact hgood
        · exact ihgood d h

lemma pow_wsub1 {w : ℕ} (hw : 2 ≤ w) : 2 ^ (w - 1) = 2 * 2 ^ (w - 2) := by
  rw [← pow_succ']
  congr 1
  omega

section WnafBridge

variable {q : ℕ} [Fact q.Prime] {c : Curve}

lemma epure_bind {α β : Type} (a : α) (f : α → Except Err β) :
    (pure a : Except Err α) >>= f = f a := rfl

lemma precompRun_succ (twoP last : Point) (count : ℕ) :
    precompRun twoP last (count + 1) =
      (do
        let nxt ← last.add twoP
        let rest ← precompRun twoP nxt count
        return nxt :: rest) := rfl

/-- The precomputation loop produces the points `AL + A2, AL + 2·A2, …`. -/
lemma precompRun_rep (hp : c.p = (q : Int)) (hq2 : q ≠ 2) {twoP : Point}
    {A2 : (toW c q).Point} (h2 : PtRep q c twoP A2) :
    ∀ (count : ℕ) {last : Point} {AL : (toW c q).Point}, PtRep q c last AL →
      ∃ l, precompRun twoP last count = .ok l ∧ l.length = count ∧
        ∀ i : ℕ, i < count → ∃ Pi, l.get? i = some Pi ∧
          PtRep q c Pi (AL + (i + 1) • A2) := by
  intro count
  induction count with
  | zero =>
    intro last AL hL
    exact ⟨[], rfl, rfl, fun i hi => absurd hi (by omega)⟩
  | succ count ih =>
    intro last AL hL
    rw [precompRun_succ]
    obtain ⟨nxt, hne, hnr⟩ := add_rep hp hq2 hL h2
    rw [hne]
    simp only [ebind_ok]
    obtain ⟨l, hle, hll, hli⟩ := ih hnr
    rw [hle]
    simp only [ebind_ok]
    refine ⟨nxt :: l, rfl, by simp [hll], ?_⟩
    intro i hi
    cases i with
    | zero =>
      refine ⟨nxt, rfl, ?_⟩
      have h1 : ((0 : ℕ) + 1) • A2 = A2 := by
        rw [zero_add, one_nsmul]
      rw [h1]
      exact hnr
    | succ j =>
      obtain ⟨Pj, hPj, hPr⟩ := hli j (by omega)
      refine ⟨Pj, hPj, ?_⟩
      have harr : AL + ((j + 1 : ℕ) + 1) • A2 = AL + A2 + ((j + 1 : ℕ)) • A2 := by
        rw [add_nsmul, one_nsmul]
        abel
      rw [harr]
      exact hPr

lemma wnafAccum_nil (pre : List Point) (Q : Point) : wnafAccum pre Q [] = .ok Q := rfl

lemma wnafAccum_cons (pre : List Point) (Q : Point) (zi : Int) (rest : List Int) :
    wnafAccum pre Q (zi :: rest) =
      (do
        let Qd ← Q.double
        let Qn ←
          if zi ≠ 0 then
            match pre.get? ((zi.natAbs - 1) / 2) with
            | none => .error .indexErr
            | some addend =>
              if 0 < zi then Qd.add addend
              else do
                let na ← addend.neg
                Qd.add na
          else pure Qd
        wnafAccum pre Qn rest) := rfl

/-- The single algebraic step of the accumulation loop. -/
lemma accum_step {A B : (toW c q).Point} (m : ℕ) (d v : Int) :
    (2 ^ m) • (B + B + d • A) + v • A =
      (2 ^ (m + 1)) • B + (d * 2 ^ m + v) • A := by
  have hsm : (2 ^ m : ℕ) • (d • A) = (d * 2 ^ m) • A := by
    rw [← natCast_zsmul, ← mul_zsmul, mul_comm]
    push_cast
    ring_nf
  rw [nsmul_add, nsmul_add, hsm, add_zsmul, pow_succ, mul_nsmul, two_nsmul]
  abel

/-- Accumulation invariant: processing the (most-significant-first) digit
list `ds` from accumulator `Q` yields `2^|ds| · Q + value(ds) · A`, provided
the precomputed table holds the odd multiples of `A`. -/
lemma wnafAccum_rep (hp : c.p = (q : Int)) (hq2 : q ≠ 2) {w : ℕ} (hw : 2 ≤ w)
    {pre : List Point} {A : (toW c q).Point}
    (hpre : ∀ j : ℕ, j < 2 ^ (w - 2) → ∃ Pj, pre.get? j = some Pj ∧
      PtRep q c Pj ((2 * j + 1) • A)) :
    ∀ ds : List Int, (∀ d ∈ ds, GoodDigit w d) → ∀ {Q : Point} {B : (toW c q).Point},
      PtRep q c Q B →
      ∃ R, wnafAccum pre Q ds = .ok R ∧
        PtRep q c R ((2 ^ ds.length) • B + digitsValR ds • A) := by
  intro ds
  induction ds with
  | nil =>
    intro hgood Q B hQ
    rw [wnafAccum_nil]
    refine ⟨Q, rfl, ?_⟩
    simp only [List.length_nil, pow_zero, one_nsmul, digitsValR, zero_zsmul, add_zero]
    exact hQ
  | cons d rest ih =>
    intro hgood Q B hQ
    rw [wnafAccum_cons]
    obtain ⟨Qd, hQde, hQdr⟩ := add_rep hp hq2 hQ hQ
    rw [show Q.double = Q.add Q from rfl, hQde]
    simp only [ebind_ok]
    have hgrest : ∀ x ∈ rest, GoodDigit w x :=
      fun x hx => hgood x (List.mem_cons_of_mem _ hx)
    by_cases hd : d ≠ 0
    · rw [if_pos hd]
      rcases hgood d (List.mem_cons_self d rest) with h0 | ⟨hodd, hbound⟩
      · exact absurd h0 hd
      have hidx : (d.natAbs - 1) / 2 < 2 ^ (w - 2) := by
        have h2 := pow_wsub1 hw
        omega
      obtain ⟨Pj, hPje, hPjr⟩ := hpre _ hidx
      rw [hPje]
      dsimp only
      have hdd : 2 * ((d.natAbs - 1) / 2) + 1 = d.natAbs := by omega
      rw [hdd] at hPjr
      by_cases hpos : 0 < d
      · rw [if_pos hpos]
        obtain ⟨Qn, hQne, hQnr⟩ := add_rep hp hq2 hQdr hPjr
        rw [hQne]
        simp only [ebind_ok]
        have hcast : (d.natAbs : ℕ) • A = d • A := by
          rw [← natCast_zsmul, Int.natCast_natAbs, abs_of_pos hpos]
        rw [hcast] at hQnr
        obtain ⟨R, hRe, hRr⟩ := ih hgrest hQnr
        refine ⟨R, hRe, ?_⟩
        rw [show digitsValR (d :: rest) = d * 2 ^ rest.length + digitsValR rest from rfl,
          List.length_cons, ← accum_step]
        exact hRr
      · rw [if_neg hpos]
        obtain ⟨Na, hNae, hNar⟩ := neg_rep hp hPjr
        rw [hNae]
        simp only [ebind_ok]
        obtain ⟨Qn, hQne, hQnr⟩ := add_rep hp hq2 hQdr hNar
        rw [hQne]
        simp only [ebind_ok]
        have hdneg : d < 0 := by omega
        have hcast : -((d.natAbs : ℕ) • A) = d • A := by
          rw [← natCast_zsmul, Int.natCast_natAbs, abs_of_neg hdneg, neg_zsmul, neg_neg]
        rw [hcast] at hQnr
        obtain ⟨R, hRe, hRr⟩ := ih hgrest hQnr
        refine ⟨R, hRe, ?_⟩
        rw [show digitsValR (d :: rest) = d * 2 ^ rest.length + digitsValR rest from rfl,
          List.length_cons, ← accum_step]
        exact hRr
    · rw [if_neg (by simpa using hd)]
      simp only [epure_bind]
      have hd0 : d = 0 := by omega
      obtain ⟨R, hRe, hRr⟩ := ih hgrest hQdr
      refine ⟨R, hRe, ?_⟩
      have hstep := accum_step (A := A) (B := B) rest.length d (digitsValR rest)
      rw [show digitsValR (d :: rest) = d * 2 ^ rest.length + digitsValR rest from rfl,
        List.length_cons, ← hstep, hd0, zero_zsmul, add_zero]
      exact hRr

/-- The main body of `wnaf_scalar_mult` computes the scalar multiple
`k • A` on represented points. -/
lemma wnaf_abs_rep (hp : c.p = (q : Int)) (hq2 : q ≠ 2) (w : ℕ) (hw : 2 ≤ w)
    {P : Point} {A : (toW c q).Point} (hP : PtRep q c P A) (k : ℕ) :
    ∃ R, wnaf_scalar_mult_abs k P w = .ok R ∧ PtRep q c R (((k : ℕ) : Int) • A) := by
  unfold wnaf_scalar_mult_abs
  obtain ⟨twoP, h2e, h2r⟩ := add_rep hp hq2 hP hP
  rw [show P.double = P.add P from rfl, h2e]
  simp only [ebind_ok]
  obtain ⟨l, hle, hll, hli⟩ := precompRun_rep hp hq2 h2r (2 ^ (w - 2) - 1) hP
  rw [hle]
  simp only [ebind_ok]
  rw [rep_curve hP]
  have hpre : ∀ j : ℕ, j < 2 ^ (w - 2) → ∃ Pj, (P :: l).get? j = some Pj ∧
      PtRep q c Pj ((2 * j + 1) • A) := by
    intro j hj
    cases j with
    | zero =>
      refine ⟨P, rfl, ?_⟩
      have h1 : (2 * 0 + 1) • A = A := by norm_num
      rw [h1]
      exact hP
    | succ i =>
      obtain ⟨Pi, hPie, hPir⟩ := hli i (by omega)
      refine ⟨Pi, hPie, ?_⟩
      have harr : (2 * (i + 1) + 1) • A = A + (i + 1) • (A + A) := by
        rw [nsmul_add, show 2 * (i + 1) + 1 = 1 + ((i + 1) + (i + 1)) from by omega,
          add_nsmul, add_nsmul, one_nsmul]
      rw [harr]
      exact hPir
  obtain ⟨hdval, hdgood⟩ := wnafDigits_spec hw k k le_rfl
  have hgoodrev : ∀ d ∈ (wnafDigits w k k).reverse, GoodDigit w d := by
    intro d hd
    exact hdgood d (List.mem_reverse.mp hd)
  obtain ⟨R, hRe, hRr⟩ := wnafAccum_rep hp hq2 hw hpre (wnafDigits w k k).reverse
    hgoodrev rep_infinity
  refine ⟨R, hRe, ?_⟩
  rw [digitsValR_reverse, hdval, nsmul_zero, zero_add] at hRr
  exact hRr

end WnafBridge

/-! ### Small structural helpers -/

lemma mkPoint_ok_elim {c : Curve} {x y : Int} {P : Point} (h : mkPoint c x y = .ok P) :
    P = ⟨c, some (x % c.F.p), some (y % c.F.p)⟩ ∧ curveEq c (x % c.F.p) (y % c.F.p) := by
  unfold mkPoint at h
  by_cases hc : curveEq c (x % c.F.p) (y % c.F.p)
  · rw [if_pos hc] at h
    exact ⟨(Except.ok.inj h).symm, hc⟩
  · rw [if_neg hc] at h
    exact absurd h (by simp)

lemma neg_ok_curve {P Pn : Point} (h : P.neg = .ok Pn) : Pn.curve = P.curve := by
  unfold Point.neg at h
  by_cases hi : P.is_infinity = true
  · rw [if_pos hi] at h
    rw [← Except.ok.inj h]
  · rw [if_neg hi] at h
    revert h
    cases P.x with
    | none => intro h; exact absurd h (by simp)
    | some x =>
      cases P.y with
      | none => intro h; exact absurd h (by simp)
      | some y =>
        intro h
        rw [(mkPoint_ok_elim h).1]

/-- `PrimeField.div` returns a value (not an exception) whenever the divisor
is not divisible by the modulus. -/
lemma Fdiv_some (F : PrimeField) (a : Int) {b : Int} (hb : ¬ b % F.p = 0) :
    ∃ s, F.div a b = .ok s := by
  refine ⟨F.mul a (F.pow b (F.p - 2).toNat), ?_⟩
  unfold PrimeField.div PrimeField.inv
  rw [if_neg hb]
  rfl

/-! ## Claim C1: wNAF scalar multiplication coincides with double-and-add -/

/-- **C1**.  For every integer scalar `k` (negative, zero, oversized included)
and every valid nonsingular point `P` on a curve over an odd prime field,
`wnaf_scalar_mult k P 5` returns exactly what `scalar_mult k P` returns: the
windowed-NAF path and the double-and-add path are extensionally equal.  The
hypotheses `hqp`, `hq2`, `hp`, `hns` formalize that `P`'s curve is a genuine
short Weierstrass curve — per the specification's data model ("the set of
points … forming an abelian group"), its field has odd prime order and the
point is a nonsingular curve point. -/
theorem claim_C1_wnaf_equals_double_and_add
    (c : Curve) (q : ℕ) (hqp : Nat.Prime q) (hq2 : q ≠ 2) (hp : c.p = ((q : ℕ) : Int))
    (P : Point) (hc : P.curve = c) (hv : P.validB = true) (hns : P.nsB = true)
    (k : Int) :
    wnaf_scalar_mult k P 5 = scalar_mult k P := by
  haveI : Fact q.Prime := ⟨hqp⟩
  obtain ⟨A, hA⟩ := rep_of_valid hp hc hv hns
  unfold wnaf_scalar_mult scalar_mult
  by_cases hg : k % P.curve.n = 0 ∨ P.is_infinity = true
  · rw [if_pos hg, if_pos hg]
  · rw [if_neg hg, if_neg hg]
    by_cases hneg : k < 0
    · rw [if_pos hneg, if_pos hneg]
      obtain ⟨Pn, hPne, hPnr⟩ := neg_rep hp hA
      rw [hPne]
      simp only [ebind_ok]
      by_cases hg2 : (-k) % Pn.curve.n = 0 ∨ Pn.is_infinity = true
      · rw [if_pos hg2, if_pos hg2]
      · rw [if_neg hg2, if_neg hg2]
        obtain ⟨R1, hR1e, hR1r⟩ := wnaf_abs_rep hp hq2 5 (by norm_num) hPnr (-k).toNat
        obtain ⟨R2, hR2e, hR2r⟩ := scalar_mult_abs_rep hp hq2 hPnr (-k).toNat
        rw [natCast_zsmul] at hR1r
        rw [hR1e, hR2e, rep_point_unique hp hR1r hR2r]
    · rw [if_neg hneg, if_neg hneg]
      obtain ⟨R1, hR1e, hR1r⟩ := wnaf_abs_rep hp hq2 5 (by norm_num) hA k.toNat
      obtain ⟨R2, hR2e, hR2r⟩ := scalar_mult_abs_rep hp hq2 hA k.toNat
      rw [natCast_zsmul] at hR1r
      rw [hR1e, hR2e, rep_point_unique hp hR1r hR2r]

/-- A small testing curve: `y² = x³ + 2x + 2` over `GF(17)`, base point
`(5, 1)` of order `19`. -/
def toyCurve : Curve :=
  { name := "toy", p := 17, a := 2, b := 2, Gx := 5, Gy := 1, n := 19, h := 1 }

/-- The stored base point of `toyCurve`. -/
def toyG : Point := ⟨toyCurve, some 5, some 1⟩

theorem claim_C1_witness :
    (Nat.Prime 17 ∧ (17 : ℕ) ≠ 2 ∧ toyCurve.p = ((17 : ℕ) : Int) ∧
      toyG.curve = toyCurve ∧ toyG.validB = true ∧ toyG.nsB = true) ∧
    wnaf_scalar_mult (-7) toyG 5 = scalar_mult (-7) toyG :=
  ⟨by decide,
    claim_C1_wnaf_equals_double_and_add toyCurve 17 (by decide) (by decide) (by decide)
      toyG (by decide) (by decide) (by decide) (-7)⟩

/-! ## Claim C3: no `DivisionByZero` in `Point.__add__` -/

/-- The curve record `y² = x³ (mod 2)` with `p = 2`, used to refute the
unrestricted claim. -/
def curveP2 : Curve :=
  { name := "p2", p := 2, a := 0, b := 0, Gx := 0, Gy := 0, n := 5, h := 1 }

/-- The point `(1, 1)` on `curveP2` — a valid stored point (it satisfies the
curve equation with coordinates in `[0, 2)`). -/
def ptP2 : Point := ⟨curveP2, some 1, some 1⟩

/-- **C3, counterexample.**  The claim as stated is false: for the valid
point `(1, 1)` on the curve with `p = 2`, evaluating `P + P` does raise
`ZeroDivisionError` — the doubling branch is taken (`y₁ = 1 ≠ 0`) and its
slope divides by `2·y₁ mod 2 = 0`. -/
theorem claim_C3_counterexample :
    (ptP2.curve = curveP2 ∧ ptP2.validB = true ∧ curveP2.p = 2) ∧
    Point.add ptP2 ptP2 = .error Err.divByZero := by decide

/-- **C3, amended.**  For all valid points `P`, `Q` of the same curve whose
modulus `p` is odd, `P + Q` never raises `DivisionByZero`: the doubling-slope
divisor `2·y₁` is then a unit mod `p` (case 3 excludes `y₁ = 0`), and the
chord-slope divisor `x₂ - x₁` is nonzero mod `p` because normalized distinct
coordinates differ by less than `p`.  (For even `p` the claim fails; see the
counterexample.) -/
theorem claim_C3_amended_no_division_by_zero
    (c : Curve) (hpodd : c.p % 2 = 1) (P Q : Point)
    (hPc : P.curve = c) (hQc : Q.curve = c)
    (hPv : P.validB = true) (hQv : Q.validB = true) :
    Point.add P Q ≠ .error Err.divByZero := by
  obtain ⟨pc, px, py⟩ := P
  obtain ⟨qc, qx, qy⟩ := Q
  have hpc : c = pc := (show pc = c from hPc).symm
  subst hpc
  have hqc : c = qc := (show qc = c from hQc).symm
  subst hqc
  cases px with
  | none =>
    cases py with
    | none =>
      rw [show (⟨c, none, none⟩ : Point) = Point.infinity c from rfl,
        add_inf_left c _ hQc]
      simp
    | some y => exact absurd hPv (by simp [Point.validB])
  | some x₁ =>
    cases py with
    | none => exact absurd hPv (by simp [Point.validB])
    | some y₁ =>
      cases qx with
      | none =>
        cases qy with
        | none =>
          rw [show (⟨c, none, none⟩ : Point) = Point.infinity c from rfl,
            add_inf_right c x₁ y₁]
          simp
        | some y => exact absurd hQv (by simp [Point.validB])
      | some x₂ =>
        cases qy with
        | none => exact absurd hQv (by simp [Point.validB])
        | some y₂ =>
          simp only [Point.validB, Bool.and_eq_true, decide_eq_true_eq] at hPv hQv
          obtain ⟨⟨⟨⟨hx₁0, hx₁1⟩, hy₁0⟩, hy₁1⟩, -⟩ := hPv
          obtain ⟨⟨⟨⟨hx₂0, hx₂1⟩, hy₂0⟩, hy₂1⟩, -⟩ := hQv
          rw [add_affine]
          by_cases hc1 : x₁ = x₂ ∧ (y₁ ≠ y₂ ∨ y₁ = 0)
          · rw [if_pos hc1]
            simp
          · rw [if_neg hc1]
            have hppos : (0 : Int) < c.p := by omega
            have htail : ∀ s : Int,
                (mkPoint c (c.F.sub (c.F.sub (c.F.pow s 2) x₁) x₂)
                  (c.F.sub (c.F.mul s (c.F.sub x₁
                    (c.F.sub (c.F.sub (c.F.pow s 2) x₁) x₂))) y₁)) ≠
                  .error Err.divByZero := by
              intro s
              unfold mkPoint
              by_cases hok : curveEq c ((c.F.sub (c.F.sub (c.F.pow s 2) x₁) x₂) % c.F.p)
                ((c.F.sub (c.F.mul s (c.F.sub x₁
                  (c.F.sub (c.F.sub (c.F.pow s 2) x₁) x₂))) y₁) % c.F.p)
              · rw [if_pos hok]
                simp
              · rw [if_neg hok]
                simp
            by_cases hc2 : x₁ = x₂ ∧ y₁ = y₂
            · rw [if_pos hc2]
              push_neg at hc1
              obtain ⟨-, hy₁ne⟩ := hc1 hc2.1
              have hdz : ¬ (c.F.mul 2 y₁) % c.F.p = 0 := by
                show ¬ ((2 * y₁) % c.p) % c.p = 0
                rw [Int.emod_emod_of_dvd _ dvd_rfl]
                intro h0
                have hdvd : c.p ∣ 2 * y₁ := Int.dvd_iff_emod_eq_zero.mpr h0
                have hg1 : Int.gcd c.p 2 = 1 := by
                  have hd2 := Nat.gcd_dvd_right c.p.natAbs 2
                  rcases (Nat.dvd_prime Nat.prime_two).mp hd2 with h1 | h2
                  · exact h1
                  · exfalso
                    have := Nat.gcd_dvd_left c.p.natAbs 2
                    rw [h2] at this
                    omega
                have hdy : c.p ∣ y₁ :=
                  Int.dvd_of_dvd_mul_right_of_gcd_one hdvd hg1
                have := Int.eq_zero_of_abs_lt_dvd hdy (by rw [abs_lt]; omega)
                omega
              obtain ⟨s, hs⟩ := Fdiv_some c.F (c.F.add (c.F.mul 3 (c.F.pow x₁ 2)) c.a) hdz
              rw [hs]
              simp only [ebind_ok]
              exact htail s
            · rw [if_neg hc2]
              have hxne : x₁ ≠ x₂ := by
                intro hxx
                rcases Decidable.em (y₁ = y₂) with h | h
                · exact hc2 ⟨hxx, h⟩
                · exact hc1 ⟨hxx, Or.inl h⟩
              have hdz : ¬ (c.F.sub x₂ x₁) % c.F.p = 0 := by
                show ¬ ((x₂ - x₁) % c.p) % c.p = 0
                rw [Int.emod_emod_of_dvd _ dvd_rfl]
                intro h0
                have hdvd : c.p ∣ x₂ - x₁ := Int.dvd_iff_emod_eq_zero.mpr h0
                have := Int.eq_zero_of_abs_lt_dvd hdvd (by rw [abs_lt]; omega)
                omega
              obtain ⟨s, hs⟩ := Fdiv_some c.F (c.F.sub y₂ y₁) hdz
              rw [hs]
              simp only [ebind_ok]
              exact htail s

/-- Another stored point of `toyCurve`: `2·G = (6, 3)`. -/
def toy2G : Point := ⟨toyCurve, some 6, some 3⟩

theorem claim_C3_witness :
    (toyCurve.p % 2 = 1 ∧ toyG.curve = toyCurve ∧ toy2G.curve = toyCurve ∧
      toyG.validB = true ∧ toy2G.validB = true) ∧
    Point.add toyG toy2G ≠ .error Err.divByZero :=
  ⟨by decide,
    claim_C3_amended_no_division_by_zero toyCurve (by decide) toyG toy2G
      (by decide) (by decide) (by decide) (by decide)⟩

/-! ## Claim C5: reduction properties of `scalar_mult` -/

/-- **C5.**  For a valid nonsingular point `P` whose curve has odd prime
field order and whose record order `n` annihilates `P`
(`hord` states `n·P = O`, computed by the double-and-add loop itself, i.e.
"`n` is `P`'s curve order" as the claim presumes), and every integer `k`:
`scalar_mult k P = scalar_mult (k mod n) P`; the result is the point at
infinity whenever `k ≡ 0 (mod n)` or `P` is infinity; and for negative `k`
the computation equals `scalar_mult (-k) (-P)`. -/
theorem claim_C5_scalar_mult_reduction
    (c : Curve) (q nn : ℕ) (hqp : Nat.Prime q) (hq2 : q ≠ 2)
    (hp : c.p = ((q : ℕ) : Int)) (hn : c.n = ((nn : ℕ) : Int))
    (P : Point) (hc : P.curve = c) (hv : P.validB = true) (hns : P.nsB = true)
    (hord : scalarLoop nn (Point.infinity c) P nn = .ok (Point.infinity c))
    (k : Int) :
    scalar_mult k P = scalar_mult (k % c.n) P ∧
    ((k % c.n = 0 ∨ P.is_infinity = true) → scalar_mult k P = .ok (Point.infinity c)) ∧
    (k < 0 → ∀ Pn, P.neg = .ok Pn → scalar_mult k P = scalar_mult (-k) Pn) := by
  haveI : Fact q.Prime := ⟨hqp⟩
  obtain ⟨A, hA⟩ := rep_of_valid hp hc hv hns
  have hordA : nn • A = 0 := by
    obtain ⟨R, hRe, hRr⟩ := scalarLoop_rep hp hq2 nn nn le_rfl rep_infinity hA
    rw [hord] at hRe
    have hR := Except.ok.inj hRe
    subst hR
    have h0 := rep_unique hRr rep_infinity
    rwa [zero_add] at h0
  refine ⟨?_, ?_, ?_⟩
  · by_cases hk0 : k % c.n = 0
    · have hk0' : (k % c.n) % c.n = 0 := by
        rw [Int.emod_emod_of_dvd _ dvd_rfl]
        exact hk0
      unfold scalar_mult
      rw [hc, if_pos (Or.inl hk0), if_pos (Or.inl hk0')]
    · by_cases hinf : P.is_infinity = true
      · unfold scalar_mult
        rw [hc, if_pos (Or.inr hinf), if_pos (Or.inr hinf)]
      · have hk0' : ¬ (k % c.n) % c.n = 0 := by
          rw [Int.emod_emod_of_dvd _ dvd_rfl]
          exact hk0
        obtain ⟨R1, hR1e, hR1r⟩ := scalar_mult_rep hp hq2 hA hk0
        obtain ⟨R2, hR2e, hR2r⟩ := scalar_mult_rep hp hq2 hA hk0'
        rw [hR1e, hR2e]
        rw [zsmul_mod hordA hn k] at hR1r
        rw [rep_point_unique hp hR1r hR2r]
  · intro h
    unfold scalar_mult
    rw [hc, if_pos h]
  · intro hkneg Pn hPn
    have hcne : Pn.curve = P.curve := neg_ok_curve hPn
    unfold scalar_mult
    by_cases hg : k % P.curve.n = 0 ∨ P.is_infinity = true
    · rw [if_pos hg]
      rcases hg with hk0 | hinf
      · have hk0n : (-k) % Pn.curve.n = 0 := by
          rw [hcne, emod_zero_iff_neg]
          exact hk0
        rw [if_pos (Or.inl hk0n), hcne]
      · have hPP : Pn = P := by
          unfold Point.neg at hPn
          rw [if_pos hinf] at hPn
          exact (Except.ok.inj hPn).symm
        subst hPP
        rw [if_pos (Or.inr hinf)]
    · rw [if_neg hg, if_pos hkneg, hPn]
      simp only [ebind_ok]
      by_cases hg2 : (-k) % Pn.curve.n = 0 ∨ Pn.is_infinity = true
      · rw [if_pos hg2, if_pos hg2]
      · rw [if_neg hg2, if_neg hg2, if_neg (show ¬ (-k) < 0 by omega)]

theorem claim_C5_witness :
    (Nat.Prime 17 ∧ (17 : ℕ) ≠ 2 ∧ toyCurve.p = ((17 : ℕ) : Int) ∧
      toyCurve.n = ((19 : ℕ) : Int) ∧ toyG.curve = toyCurve ∧
      toyG.validB = true ∧ toyG.nsB = true ∧
      scalarLoop 19 (Point.infinity toyCurve) toyG 19 =
        .ok (Point.infinity toyCurve)) ∧
    (scalar_mult (-25) toyG = scalar_mult ((-25) % toyCurve.n) toyG ∧
      (((-25 : Int)) % toyCurve.n = 0 ∨ toyG.is_infinity = true →
        scalar_mult (-25) toyG = .ok (Point.infinity toyCurve)) ∧
      ((-25 : Int) < 0 → ∀ Pn, toyG.neg = .ok Pn →
        scalar_mult (-25) toyG = scalar_mult (-(-25)) Pn)) :=
  ⟨by decide,
    claim_C5_scalar_mult_reduction toyCurve 17 19 (by decide) (by decide) (by decide)
      (by decide) toyG (by decide) (by decide) (by decide) (by decide) (-25)⟩

/-! ## The RFC 6979 candidate loop: range of accepted nonces -/

lemma ebind_err {α β : Type} (e : Err) (f : α → Except Err β) :
    (Except.error e : Except Err α) >>= f = .error e := rfl

lemma rfc6979Loop_succ (sha : List Nat → List Nat) (n qlen rolen fuel : ℕ)
    (K V : List Nat) :
    rfc6979Loop sha n qlen rolen (fuel + 1) K V =
      (do
        let (V, T) ← genT sha K rolen rolen V []
        let k := bits2int T qlen n
        if 1 ≤ k ∧ k < n then .ok k
        else
          let K' := hmac sha K (V ++ [0x00])
          let V' := hmac sha K' V
          rfc6979Loop sha n qlen rolen fuel K' V') := rfl

/-- Any nonce returned by the candidate loop satisfies `1 ≤ k < n`. -/
lemma rfc6979Loop_ok_range (sha : List Nat → List Nat) (n qlen rolen : ℕ) :
    ∀ (fuel : ℕ) (K V : List Nat) (k : ℕ),
      rfc6979Loop sha n qlen rolen fuel K V = .ok k → 1 ≤ k ∧ k < n := by
  intro fuel
  induction fuel with
  | zero =>
    intro K V k h
    exact absurd h (by simp [rfc6979Loop])
  | succ fuel ih =>
    intro K V k h
    rw [rfc6979Loop_succ] at h
    cases hg : genT sha K rolen rolen V [] with
    | error e =>
      rw [hg, ebind_err] at h
      exact absurd h (by simp)
    | ok VT =>
      obtain ⟨V', T⟩ := VT
      rw [hg, ebind_ok] at h
      dsimp only at h
      by_cases hacc : 1 ≤ bits2int T qlen n ∧ bits2int T qlen n < n
      · rw [if_pos hacc] at h
        rw [← Except.ok.inj h]
        exact hacc
      · rw [if_neg hacc] at h
        exact ih _ _ _ h

/-- Any nonce returned by `rfc6979_generate_k` satisfies `1 ≤ k < n`. -/
lemma rfc6979_ok_range (sha : List Nat → List Nat) (fuel priv : ℕ)
    (h1 : List Nat) (n k : ℕ)
    (h : rfc6979_generate_k sha fuel priv h1 n = .ok k) : 1 ≤ k ∧ k < n :=
  rfc6979Loop_ok_range sha n _ _ fuel _ _ k h

/-! ## Claim C4: the candidate conversion reduces mod `n` -/

/-- A concrete digest stand-in for exercising the nonce generator. -/
def shaTestB : List Nat → List Nat :=
  fun l => [(l.foldl (fun a d => a * 31 + d) 5) % 256]

set_option maxRecDepth 40000 in
/-- **C4, counterexample.**  The code's generator and the generator the claim
describes (truncation only, no `% n`, with out-of-range candidates rejected
and retried — `rfc6979_generate_k_claim`) disagree on a concrete input: with
digest `shaTestB`, private scalar `1`, digest bytes `[1]` and `n = 19`, the
code returns `7` while the claim's procedure returns `6`.  The code's `7`
arises by reducing a truncated candidate `≥ 19` into range via
`bits2int`'s final `% n` and returning it — exactly what the claim says
never happens. -/
theorem claim_C4_counterexample :
    rfc6979_generate_k shaTestB 6 1 [1] 19 = .ok 7 ∧
    rfc6979_generate_k_claim shaTestB 6 1 [1] 19 = .ok 6 ∧ (7 : ℕ) ≠ 6 := by
  refine ⟨by decide, by decide, by decide⟩

/-- **C4, amended.**  Every candidate nonce is `bits2int` of the generated
HMAC output blocks, where `bits2int` truncates to the curve-order bit length
*and then reduces the result mod `n`*; a candidate is accepted exactly when
it satisfies `1 ≤ k < n` (after that reduction, only `0` can be rejected),
and on rejection the generator performs one more HMAC-based state update and
produces a fresh candidate.  Consequently every returned nonce satisfies
`1 ≤ k < n`. -/
theorem claim_C4_amended_nonce_range (sha : List Nat → List Nat)
    (fuel priv : ℕ) (h1 : List Nat) (n k : ℕ)
    (h : rfc6979_generate_k sha fuel priv h1 n = .ok k) : 1 ≤ k ∧ k < n :=
  rfc6979_ok_range sha fuel priv h1 n k h

set_option maxRecDepth 40000 in
theorem claim_C4_witness :
    rfc6979_generate_k shaTestB 6 1 [1] 19 = .ok 7 ∧ 1 ≤ 7 ∧ 7 < 19 :=
  ⟨by decide, claim_C4_amended_nonce_range shaTestB 6 1 [1] 19 7 (by decide)⟩

/-! ## Inversion of a successful `sign` run -/

lemma sign_succ (sha : List Nat → List Nat) (fuel priv : ℕ) (msg : List Nat)
    (c : Curve) :
    sign sha (fuel + 1) priv msg c =
      (do
        let k ← rfc6979_generate_k sha (fuel + 1) priv (sha msg) c.n.toNat
        let g ← G c
        let R ← scalar_mult (k : Int) g
        match R.x with
        | none => .error .typeErr
        | some rx =>
          if rx % c.n = 0 then sign sha fuel priv msg c
          else do
            let kinv ← pyInvMod k c.n.toNat
            if kinv * (bytesToNat (sha msg) % c.n.toNat + (rx % c.n).toNat * priv) %
                c.n.toNat = 0 then
              sign sha fuel priv msg c
            else
              return (rx % c.n,
                ((if c.n.toNat / 2 <
                      kinv * (bytesToNat (sha msg) % c.n.toNat + (rx % c.n).toNat * priv) %
                        c.n.toNat then
                    c.n.toNat -
                      kinv * (bytesToNat (sha msg) % c.n.toNat + (rx % c.n).toNat * priv) %
                        c.n.toNat
                  else
                    kinv * (bytesToNat (sha msg) % c.n.toNat + (rx % c.n).toNat * priv) %
                      c.n.toNat : ℕ) : Int))) := rfl

/-- Inversion principle for a successful signing run: the nonce, base point,
`R`, `r` and the pre-normalization `s` can all be read off. -/
lemma sign_ok_elim (sha : List Nat → List Nat) :
    ∀ (fuel priv : ℕ) (msg : List Nat) (c : Curve) (r s : Int),
      sign sha fuel priv msg c = .ok (r, s) →
      ∃ (fk k : ℕ) (g R : Point) (rx : Int) (kinv : ℕ),
        rfc6979_generate_k sha fk priv (sha msg) c.n.toNat = .ok k ∧
        G c = .ok g ∧
        scalar_mult (k : Int) g = .ok R ∧
        R.x = some rx ∧
        r = rx % c.n ∧ ¬ rx % c.n = 0 ∧
        pyInvMod k c.n.toNat = .ok kinv ∧
        ¬ kinv * (bytesToNat (sha msg) % c.n.toNat + (rx % c.n).toNat * priv) %
            c.n.toNat = 0 ∧
        s = ((if c.n.toNat / 2 <
                kinv * (bytesToNat (sha msg) % c.n.toNat + (rx % c.n).toNat * priv) %
                  c.n.toNat then
              c.n.toNat -
                kinv * (bytesToNat (sha msg) % c.n.toNat + (rx % c.n).toNat * priv) %
                  c.n.toNat
            else
              kinv * (bytesToNat (sha msg) % c.n.toNat + (rx % c.n).toNat * priv) %
                c.n.toNat : ℕ) : Int) := by
  intro fuel
  induction fuel with
  | zero =>
    intro priv msg c r s h
    exact absurd h (by simp [sign])
  | succ fuel ih =>
    intro priv msg c r s h
    rw [sign_succ] at h
    cases hk : rfc6979_generate_k sha (fuel + 1) priv (sha msg) c.n.toNat with
    | error e =>
      rw [hk, ebind_err] at h
      exact absurd h (by simp)
    | ok k =>
      rw [hk] at h
      simp only [ebind_ok] at h
      cases hg : G c with
      | error e =>
        rw [hg, ebind_err] at h
        exact absurd h (by simp)
      | ok g =>
        rw [hg] at h
        simp only [ebind_ok] at h
        cases hR : scalar_mult (k : Int) g with
        | error e =>
          rw [hR, ebind_err] at h
          exact absurd h (by simp)
        | ok R =>
          rw [hR] at h
          simp only [ebind_ok] at h
          cases hRx : R.x with
          | none =>
            rw [hRx] at h
            exact absurd h (by simp)
          | some rx =>
            rw [hRx] at h
            dsimp only at h
            by_cases hr0 : rx % c.n = 0
            · rw [if_pos hr0] at h
              obtain ⟨fk, k2, g2, R2, rx2, kinv2, h1, h2, h3, h4, h5, h6, h7, h8, h9⟩ :=
                ih priv msg c r s h
              exact ⟨fk, k2, g2, R2, rx2, kinv2, h1, hg ▸ h2, h3, h4, h5, h6, h7, h8, h9⟩
            · rw [if_neg hr0] at h
              cases hkinv : pyInvMod k c.n.toNat with
              | error e =>
                rw [hkinv, ebind_err] at h
                exact absurd h (by simp)
              | ok kinv =>
                rw [hkinv] at h
                simp only [ebind_ok] at h
                by_cases hs0 : kinv * (bytesToNat (sha msg) % c.n.toNat +
                    (rx % c.n).toNat * priv) % c.n.toNat = 0
                · rw [if_pos hs0] at h
                  obtain ⟨fk, k2, g2, R2, rx2, kinv2, h1, h2, h3, h4, h5, h6, h7, h8, h9⟩ :=
                    ih priv msg c r s h
                  exact ⟨fk, k2, g2, R2, rx2, kinv2, h1, hg ▸ h2, h3, h4, h5, h6, h7, h8,
                    h9⟩
                · rw [if_neg hs0] at h
                  have hpair := Except.ok.inj h
                  obtain ⟨hr, hs⟩ := Prod.mk.injEq .. ▸ hpair
                  exact ⟨fuel + 1, k, g, R, rx, kinv, hk, rfl, hR, hRx, hr.symm, hr0,
                    hkinv, hs0, hs.symm⟩

/-! ## Claim C7: ranges and low-S normalization of signatures -/

/-- **C7.**  Every pair `(r, s)` returned by `sign` on a curve with positive
order satisfies `1 ≤ r < n`, `1 ≤ s < n`, and the low-S canonical bound
`s ≤ n/2` (the code replaces `s` by `n - s` whenever `s > n/2`). -/
theorem claim_C7_sign_output_ranges (sha : List Nat → List Nat)
    (fuel priv : ℕ) (msg : List Nat) (c : Curve) (r s : Int) (hn : 0 < c.n)
    (h : sign sha fuel priv msg c = .ok (r, s)) :
    1 ≤ r ∧ r < c.n ∧ 1 ≤ s ∧ s < c.n ∧ s ≤ c.n / 2 := by
  obtain ⟨fk, k, g, R, rx, kinv, -, -, -, -, hr, hr0, -, hs0, hs⟩ :=
    sign_ok_elim sha fuel priv msg c r s h
  have hrn : 0 ≤ rx % c.n := Int.emod_nonneg rx (by omega)
  have hrl : rx % c.n < c.n := Int.emod_lt_of_pos rx hn
  have hntpos : 0 < c.n.toNat := by omega
  set s0 := kinv * (bytesToNat (sha msg) % c.n.toNat + (rx % c.n).toNat * priv) %
    c.n.toNat with hs0def
  have hs0lt : s0 < c.n.toNat := Nat.mod_lt _ hntpos
  refine ⟨by omega, by omega, ?_, ?_, ?_⟩ <;>
    · rw [hs]
      by_cases hsplit : c.n.toNat / 2 < s0
      · rw [if_pos hsplit]
        omega
      · rw [if_neg hsplit]
        omega

set_option maxRecDepth 100000 in
theorem claim_C7_witness :
    (0 : Int) < toyCurve.n ∧
    sign shaTestB 8 3 [1, 2, 3] toyCurve = .ok (3, 9) ∧
    (1 ≤ (3 : Int) ∧ (3 : Int) < toyCurve.n ∧ 1 ≤ (9 : Int) ∧
      (9 : Int) < toyCurve.n ∧ (9 : Int) ≤ toyCurve.n / 2) :=
  ⟨by decide, by decide,
    claim_C7_sign_output_ranges shaTestB 8 3 [1, 2, 3] toyCurve 3 9 (by decide)
      (by decide)⟩

/-! ## Claim C9: signing is deterministic (no entropy consumed) -/

/-- **C9.**  `sign` is a deterministic function of its arguments: run over
any two ambient entropy streams it returns the same `(r, s)` and consumes no
entropy, and two sequential signing calls with identical arguments (sharing
one stream) return the identical pair. -/
theorem claim_C9_sign_deterministic (sha : List Nat → List Nat)
    (fuel priv : ℕ) (msg : List Nat) (c : Curve) :
    (∀ e₁ e₂ : List Nat,
        ((signM sha fuel priv msg c).run e₁).1 =
          ((signM sha fuel priv msg c).run e₂).1 ∧
        ((signM sha fuel priv msg c).run e₁).2 = e₁) ∧
    (∀ e : List Nat,
        (((do
            let a ← signM sha fuel priv msg c
            let b ← signM sha fuel priv msg c
            return (a, b) : StateM (List Nat) _).run e).1.1 =
          ((do
            let a ← signM sha fuel priv msg c
            let b ← signM sha fuel priv msg c
            return (a, b) : StateM (List Nat) _).run e).1.2)) :=
  ⟨fun _ _ => ⟨rfl, rfl⟩, fun _ => rfl⟩

/-! ## Claim C10: `verify` accepts the point at infinity as a public key -/

/-- A digest capability that is constant `[0xff]`; any function of the right
type instantiates the model's abstract `sha`. -/
def sha255 : List Nat → List Nat := fun _ => [255]

/-- **C10.**  `verify` never checks that the public point is affine: on the
toy curve (`p = 17`, `a = b = 2`, `G = (5, 1)`, `n = 19`) with the infinity
point as public key, message `[2]` and the in-range pair `(r, s) = (5, 8)`
(`r = Gx`, `s = e` where `e = 255 % 19 = 8`), `u2·pub` degenerates to
infinity, `u1·G = G`, and verification succeeds. -/
theorem claim_C10_verify_accepts_infinity_pub :
    (Point.infinity toyCurve).is_infinity = true ∧
    (1 ≤ (5 : Int) ∧ (5 : Int) < toyCurve.n ∧
      1 ≤ (8 : Int) ∧ (8 : Int) < toyCurve.n) ∧
    verify sha255 (Point.infinity toyCurve) [2] (5, 8) = .ok true := by decide

/-! ## `pyInvMod`: specification of the modular-inverse search -/

/-- Soundness: a returned inverse really is one, and lies in `[0, n)`. -/
lemma pyInvMod_ok_spec {x n y : ℕ} (h : pyInvMod x n = .ok y) :
    x * y % n = 1 % n ∧ y < n := by
  unfold pyInvMod at h
  cases hf : (List.range n).find? (fun y => x * y % n = 1 % n) with
  | none =>
    rw [hf] at h
    exact absurd h (by simp)
  | some y' =>
    rw [hf] at h
    dsimp only at h
    have hy : y' = y := Except.ok.inj h
    subst hy
    have h1 := List.find?_some hf
    have h2 := List.mem_range.mp (List.mem_of_find?_eq_some hf)
    simp only [decide_eq_true_eq] at h1
    exact ⟨h1, h2⟩

/-- Completeness over a prime modulus: every `x ≢ 0 (mod n)` has an
inverse, so the search succeeds. -/
lemma pyInvMod_ok_of_prime {n : ℕ} (hnp : Nat.Prime n) {x : ℕ}
    (hx : ¬ x % n = 0) : ∃ y, pyInvMod x n = .ok y := by
  unfold pyInvMod
  cases hf : (List.range n).find? (fun y => x * y % n = 1 % n) with
  | some y => exact ⟨y, rfl⟩
  | none =>
    exfalso
    haveI : Fact n.Prime := ⟨hnp⟩
    haveI : NeZero n := ⟨hnp.pos.ne'⟩
    have hx0 : (x : ZMod n) ≠ 0 := by
      intro h0
      have hd : n ∣ x := (ZMod.natCast_zmod_eq_zero_iff_dvd x n).mp h0
      obtain ⟨t, rfl⟩ := hd
      exact hx (Nat.mul_mod_right n t)
    have hinv : (x : ZMod n) * (x : ZMod n)⁻¹ = 1 := mul_inv_cancel₀ hx0
    have hlt : ((x : ZMod n)⁻¹).val < n := ZMod.val_lt _
    have hnone := List.find?_eq_none.mp hf ((x : ZMod n)⁻¹).val
      (List.mem_range.mpr hlt)
    apply hnone
    simp only [decide_eq_true_eq]
    have hcast : ((x * ((x : ZMod n)⁻¹).val : ℕ) : ZMod n) = ((1 : ℕ) : ZMod n) := by
      rw [Nat.cast_mul, ZMod.natCast_rightInverse _, hinv, Nat.cast_one]
    exact (ZMod.natCast_eq_natCast_iff _ _ _).mp hcast

/-- Reduction mod `n` is invisible in `ZMod n`. -/
lemma natCast_mod_zmod (a n : ℕ) : ((a % n : ℕ) : ZMod n) = (a : ZMod n) :=
  (ZMod.natCast_eq_natCast_iff _ _ _).mpr (Nat.mod_mod_of_dvd a dvd_rfl)

/-! ## Unfolding `verify` -/

lemma verify_eq (sha : List Nat → List Nat) (pub : Point) (msg : List Nat)
    (r s : Int) :
    verify sha pub msg (r, s) =
      (if ¬(1 ≤ r ∧ r < pub.curve.n ∧ 1 ≤ s ∧ s < pub.curve.n) then .ok false
       else do
         let w ← pyInvMod s.toNat pub.curve.n.toNat
         let g ← G pub.curve
         let P1 ← scalar_mult
           ((bytesToNat (sha msg) % pub.curve.n.toNat * w % pub.curve.n.toNat : ℕ) : Int) g
         let P2 ← scalar_mult ((r.toNat * w % pub.curve.n.toNat : ℕ) : Int) pub
         let P ← P1.add P2
         if P.is_infinity then .ok false
         else
           match P.x with
           | none => .error .typeErr
           | some px => .ok (decide (px % pub.curve.n = r))) := rfl

/-! ## Totality of `scalar_mult` and order arithmetic on denotations -/

section Bridge2

variable {q : ℕ} [Fact q.Prime] {c : Curve}

/-- `scalar_mult` on a represented point always succeeds with a represented
result (the guard case returns represented infinity). -/
lemma scalar_mult_total (hp : c.p = (q : Int)) (hq2 : q ≠ 2) {P : Point}
    {A : (toW c q).Point} (hP : PtRep q c P A) (k : Int) :
    ∃ R B, scalar_mult k P = .ok R ∧ PtRep q c R B := by
  by_cases hk : k % c.n = 0
  · refine ⟨Point.infinity c, 0, ?_, rep_infinity⟩
    unfold scalar_mult
    rw [rep_curve hP, if_pos (Or.inl hk)]
  · obtain ⟨R, h1, h2⟩ := scalar_mult_rep hp hq2 hP hk
    exact ⟨R, k • A, h1, h2⟩

/-- When the record order `nn` annihilates the denotation, `scalar_mult`
always succeeds and denotes the scalar action, guard case included. -/
lemma scalar_mult_rep_ord (hp : c.p = (q : Int)) (hq2 : q ≠ 2) {P : Point}
    {A : (toW c q).Point} (hP : PtRep q c P A) {nn : ℕ} (hord : nn • A = 0)
    (hn : c.n = (nn : Int)) (k : Int) :
    ∃ R, scalar_mult k P = .ok R ∧ PtRep q c R (k • A) := by
  by_cases hk : k % c.n = 0
  · refine ⟨Point.infinity c, ?_, ?_⟩
    · unfold scalar_mult
      rw [rep_curve hP, if_pos (Or.inl hk)]
    · rw [zsmul_mod hord hn k, hk, zero_zsmul]
      exact rep_infinity
  · exact scalar_mult_rep hp hq2 hP hk

/-- Scalars congruent modulo an annihilating order act identically. -/
lemma zsmul_congr {A : (toW c q).Point} {nn : ℕ} (hA : nn • A = 0)
    {a b : Int} (h : ((a : Int) : ZMod nn) = ((b : Int) : ZMod nn)) :
    a • A = b • A := by
  have h0 : (((a - b : Int)) : ZMod nn) = 0 := by
    push_cast
    rw [h]
    ring
  obtain ⟨t, ht⟩ := (ZMod.intCast_zmod_eq_zero_iff_dvd _ _).mp h0
  have hab : a = b + t * (nn : Int) := by
    rw [mul_comm t]
    omega
  rw [hab, add_zsmul, mul_zsmul, natCast_zsmul, hA, zsmul_zero, add_zero]

/-- Over a prime record order annihilating a nonzero denotation, no scalar
`1 ≤ k < nn` kills it. -/
lemma smul_ne_zero_of_lt {A : (toW c q).Point} {nn : ℕ} (hnp : Nat.Prime nn)
    (hA : nn • A = 0) (hA0 : A ≠ 0) {k : ℕ} (hk1 : 1 ≤ k) (hk2 : k < nn) :
    k • A ≠ 0 := by
  intro hk0
  have hdvd : addOrderOf A ∣ nn := addOrderOf_dvd_of_nsmul_eq_zero hA
  have hdvd2 : addOrderOf A ∣ k := addOrderOf_dvd_of_nsmul_eq_zero hk0
  rcases Nat.Prime.eq_one_or_self_of_dvd hnp _ hdvd with h1 | h1
  · exact hA0 (AddMonoid.addOrderOf_eq_one_iff.mp h1)
  · rw [h1] at hdvd2
    have := Nat.le_of_dvd (by omega) hdvd2
    omega

end Bridge2

/-! ## Claim C6: `verify` as a total, non-throwing predicate -/

/-- A curve record with composite order `n = 4`: `y² = x³ + x + 1` over
`GF(5)`, base point `(0, 1)`. -/
def curveC6 : Curve :=
  { name := "c6", p := 5, a := 1, b := 1, Gx := 0, Gy := 1, n := 4, h := 1 }

/-- The valid stored point `(0, 1)` on `curveC6`. -/
def ptC6 : Point := ⟨curveC6, some 0, some 1⟩

/-- **C6, counterexample.**  The claim as stated is false: with a well-typed
valid public point on a curve record whose order is the composite `4`, and
the in-range pair `(r, s) = (1, 2)`, `verify` raises (`pow(s, -1, n)` has no
inverse because `gcd(2, 4) ≠ 1`) instead of returning a boolean. -/
theorem claim_C6_counterexample :
    (ptC6.curve = curveC6 ∧ ptC6.validB = true ∧
      (1 ≤ (1 : Int) ∧ (1 : Int) < curveC6.n ∧
        1 ≤ (2 : Int) ∧ (2 : Int) < curveC6.n)) ∧
    verify sha255 ptC6 [1] (1, 2) = .error Err.noModInverse := by decide

/-- **C6, amended.**  Over a curve record with odd prime field order and
*prime* group order, with a valid nonsingular public point and a valid
nonsingular base point, `verify` is total: it returns a boolean and never
raises.  Moreover it returns `False` whenever `r` or `s` lies outside
`[1, n)`, whenever the computed point `u1·G + u2·pub` is infinity, and
whenever that point's x-coordinate mod `n` differs from `r`.  (For composite
`n` the totality fails; see the counterexample.) -/
theorem claim_C6_amended_verify_total (sha : List Nat → List Nat)
    (c : Curve) (q nn : ℕ) (hqp : Nat.Prime q) (hnp : Nat.Prime nn)
    (hq2 : q ≠ 2) (hp : c.p = ((q : ℕ) : Int)) (hn : c.n = ((nn : ℕ) : Int))
    (pub : Point) (hc : pub.curve = c) (hv : pub.validB = true)
    (hns : pub.nsB = true)
    (g : Point) (hg : G c = .ok g) (hgc : g.curve = c) (hgv : g.validB = true)
    (hgns : g.nsB = true)
    (msg : List Nat) (r s : Int) :
    (∃ b, verify sha pub msg (r, s) = .ok b) ∧
    (¬(1 ≤ r ∧ r < c.n ∧ 1 ≤ s ∧ s < c.n) →
      verify sha pub msg (r, s) = .ok false) ∧
    (∀ w P1 P2 P,
      pyInvMod s.toNat c.n.toNat = .ok w →
      scalar_mult ((bytesToNat (sha msg) % c.n.toNat * w % c.n.toNat : ℕ) : Int) g
        = .ok P1 →
      scalar_mult ((r.toNat * w % c.n.toNat : ℕ) : Int) pub = .ok P2 →
      P1.add P2 = .ok P →
      (P.is_infinity = true → verify sha pub msg (r, s) = .ok false) ∧
      (∀ px, P.x = some px → ¬ px % c.n = r →
        verify sha pub msg (r, s) = .ok false)) := by
  haveI : Fact q.Prime := ⟨hqp⟩
  obtain ⟨B, hB⟩ := rep_of_valid hp hc hv hns
  obtain ⟨A, hA⟩ := rep_of_valid hp hgc hgv hgns
  refine ⟨?_, ?_, ?_⟩
  · rw [verify_eq, hc]
    by_cases hcond : ¬(1 ≤ r ∧ r < c.n ∧ 1 ≤ s ∧ s < c.n)
    · rw [if_pos hcond]
      exact ⟨false, rfl⟩
    · rw [if_neg hcond]
      push_neg at hcond
      obtain ⟨hr1, hr2, hs1, hs2⟩ := hcond
      have hnt : c.n.toNat = nn := by omega
      have hsmod : ¬ s.toNat % nn = 0 := by
        rw [Nat.mod_eq_of_lt (by omega)]
        omega
      obtain ⟨w, hw⟩ := pyInvMod_ok_of_prime hnp hsmod
      rw [hnt, hw]
      simp only [ebind_ok]
      rw [hg]
      simp only [ebind_ok]
      obtain ⟨P1, B1, hP1e, hP1r⟩ :=
        scalar_mult_total hp hq2 hA
          ((bytesToNat (sha msg) % nn * w % nn : ℕ) : Int)
      rw [hP1e]
      simp only [ebind_ok]
      obtain ⟨P2, B2, hP2e, hP2r⟩ :=
        scalar_mult_total hp hq2 hB ((r.toNat * w % nn : ℕ) : Int)
      rw [hP2e]
      simp only [ebind_ok]
      obtain ⟨P, hPe, hPr⟩ := add_rep hp hq2 hP1r hP2r
      rw [hPe]
      simp only [ebind_ok]
      by_cases hinf : P.is_infinity = true
      · rw [if_pos hinf]
        exact ⟨false, rfl⟩
      · rw [if_neg hinf]
        cases hC : B1 + B2 with
        | zero =>
          rw [hC] at hPr
          exact absurd ((rep_inf_iff hPr).mpr rfl) hinf
        | some hnsP =>
          rw [hC] at hPr
          obtain ⟨a, b, hPshape, -, -, -, -, -, -⟩ := rep_affine_shape hPr
          rw [hPshape]
          exact ⟨_, rfl⟩
  · intro hcond
    rw [verify_eq, hc, if_pos hcond]
  · intro w P1 P2 P hw hP1 hP2 hP
    constructor
    · intro hinf
      rw [verify_eq, hc]
      by_cases hcond : ¬(1 ≤ r ∧ r < c.n ∧ 1 ≤ s ∧ s < c.n)
      · rw [if_pos hcond]
      · rw [if_neg hcond, hw]
        simp only [ebind_ok]
        rw [hg]
        simp only [ebind_ok]
        rw [hP1]
        simp only [ebind_ok]
        rw [hP2]
        simp only [ebind_ok]
        rw [hP]
        simp only [ebind_ok]
        rw [if_pos hinf]
    · intro px hpx hne
      rw [verify_eq, hc]
      by_cases hcond : ¬(1 ≤ r ∧ r < c.n ∧ 1 ≤ s ∧ s < c.n)
      · rw [if_pos hcond]
      · rw [if_neg hcond, hw]
        simp only [ebind_ok]
        rw [hg]
        simp only [ebind_ok]
        rw [hP1]
        simp only [ebind_ok]
        rw [hP2]
        simp only [ebind_ok]
        rw [hP]
        simp only [ebind_ok]
        have hinf : P.is_infinity = false := by
          simp [Point.is_infinity, hpx]
        rw [if_neg (by rw [hinf]; simp), hpx]
        dsimp only
        rw [decide_eq_false hne]

set_option maxRecDepth 40000 in
theorem claim_C6_witness :
    (Nat.Prime 17 ∧ Nat.Prime 19 ∧ (17 : ℕ) ≠ 2 ∧
      toyCurve.p = ((17 : ℕ) : Int) ∧ toyCurve.n = ((19 : ℕ) : Int) ∧
      toyG.curve = toyCurve ∧ toyG.validB = true ∧ toyG.nsB = true ∧
      G toyCurve = .ok toyG) ∧
    ((∃ b, verify sha255 toyG [1] (2, 3) = .ok b) ∧
     (¬(1 ≤ (2 : Int) ∧ (2 : Int) < toyCurve.n ∧
        1 ≤ (3 : Int) ∧ (3 : Int) < toyCurve.n) →
       verify sha255 toyG [1] (2, 3) = .ok false) ∧
     (∀ w P1 P2 P,
       pyInvMod (3 : Int).toNat toyCurve.n.toNat = .ok w →
       scalar_mult
         ((bytesToNat (sha255 [1]) % toyCurve.n.toNat * w % toyCurve.n.toNat : ℕ) : Int)
         toyG = .ok P1 →
       scalar_mult (((2 : Int).toNat * w % toyCurve.n.toNat : ℕ) : Int) toyG
         = .ok P2 →
       P1.add P2 = .ok P →
       (P.is_infinity = true → verify sha255 toyG [1] (2, 3) = .ok false) ∧
       (∀ px, P.x = some px → ¬ px % toyCurve.n = (2 : Int) →
         verify sha255 toyG [1] (2, 3) = .ok false))) :=
  ⟨by decide,
    claim_C6_amended_verify_total sha255 toyCurve 17 19 (by decide) (by decide)
      (by decide) (by decide) (by decide) toyG (by decide) (by decide) (by decide)
      toyG (by decide) (by decide) (by decide) (by decide) [1] 2 3⟩

/-! ## Claim C8: ECDH agreement -/

/-- **C8.**  For two keypairs `(dA, QA)`, `(dB, QB)` on the same curve (odd
prime field, valid nonsingular base point, both private scalars in `[1, n)`,
`QA = dA·G`, `QB = dB·G`), the two shared-secret computations return
identical byte strings: `dA·(dB·G) = dB·(dA·G)` by commutativity of the
scalar action, and the stored points (hence the derived x-coordinate bytes)
coincide. -/
theorem claim_C8_ecdh_agreement (sha : List Nat → List Nat)
    (c : Curve) (q : ℕ) (hqp : Nat.Prime q) (hq2 : q ≠ 2)
    (hp : c.p = ((q : ℕ) : Int))
    (g : Point) (hg : G c = .ok g) (hgc : g.curve = c) (hgv : g.validB = true)
    (hgns : g.nsB = true)
    (dA dB : Int) (hdA : 1 ≤ dA ∧ dA < c.n) (hdB : 1 ≤ dB ∧ dB < c.n)
    (QA QB : Point) (hQA : scalar_mult dA g = .ok QA)
    (hQB : scalar_mult dB g = .ok QB) :
    ecdh_shared_secret sha dA QB = ecdh_shared_secret sha dB QA := by
  haveI : Fact q.Prime := ⟨hqp⟩
  obtain ⟨A, hA⟩ := rep_of_valid hp hgc hgv hgns
  have hdA0 : ¬ dA % c.n = 0 := by
    rw [Int.emod_eq_of_lt (by omega) (by omega)]
    omega
  have hdB0 : ¬ dB % c.n = 0 := by
    rw [Int.emod_eq_of_lt (by omega) (by omega)]
    omega
  obtain ⟨QA', hQA'e, hQA'r⟩ := scalar_mult_rep hp hq2 hA hdA0
  obtain ⟨QB', hQB'e, hQB'r⟩ := scalar_mult_rep hp hq2 hA hdB0
  rw [hQA'e] at hQA
  rw [hQB'e] at hQB
  have h1 : QA' = QA := Except.ok.inj hQA
  subst h1
  have h2 : QB' = QB := Except.ok.inj hQB
  subst h2
  obtain ⟨SA, hSAe, hSAr⟩ := scalar_mult_rep hp hq2 hQB'r hdA0
  obtain ⟨SB, hSBe, hSBr⟩ := scalar_mult_rep hp hq2 hQA'r hdB0
  have hsame : dA • dB • A = dB • dA • A := by
    rw [← mul_zsmul, ← mul_zsmul, mul_comm dA dB]
  rw [hsame] at hSAr
  have hSS : SA = SB := rep_point_unique hp hSAr hSBr
  unfold ecdh_shared_secret
  rw [rep_curve hQB'r, rep_curve hQA'r]
  rw [if_neg (not_not_intro hdA), if_neg (not_not_intro hdB)]
  rw [hSAe, hSBe]
  simp only [ebind_ok]
  rw [hSS]

/-- The stored point `3·G = (10, 6)` on the toy curve. -/
def toyQA : Point := ⟨toyCurve, some 10, some 6⟩

/-- The stored point `5·G = (9, 16)` on the toy curve. -/
def toyQB : Point := ⟨toyCurve, some 9, some 16⟩

theorem claim_C8_witness :
    (Nat.Prime 17 ∧ (17 : ℕ) ≠ 2 ∧ toyCurve.p = ((17 : ℕ) : Int) ∧
      G toyCurve = .ok toyG ∧ toyG.curve = toyCurve ∧ toyG.validB = true ∧
      toyG.nsB = true ∧ (1 ≤ (3 : Int) ∧ (3 : Int) < toyCurve.n) ∧
      (1 ≤ (5 : Int) ∧ (5 : Int) < toyCurve.n) ∧
      scalar_mult 3 toyG = .ok toyQA ∧ scalar_mult 5 toyG = .ok toyQB) ∧
    ecdh_shared_secret shaTestB 3 toyQB = ecdh_shared_secret shaTestB 5 toyQA :=
  ⟨by decide,
    claim_C8_ecdh_agreement shaTestB toyCurve 17 (by decide) (by decide)
      (by decide) toyG (by decide) (by decide) (by decide) (by decide) 3 5
      (by decide) (by decide) toyQA toyQB (by decide) (by decide)⟩

/-! ## Claim C2: sign/verify round-trip -/

/-- **C2.**  Over a curve record with odd prime field order and prime group
order `n` that annihilates the valid nonsingular base point (the order
computed by the double-and-add loop itself), for every private scalar
`1 ≤ priv < n` with public point `pub = priv·G`, every message, and every
successful signing run, `verify(pub, msg, sign(priv, msg, curve))` returns
`True`. -/
theorem claim_C2_sign_verify_roundtrip (sha : List Nat → List Nat)
    (c : Curve) (q nn : ℕ) (hqp : Nat.Prime q) (hnp : Nat.Prime nn)
    (hq2 : q ≠ 2) (hp : c.p = ((q : ℕ) : Int)) (hn : c.n = ((nn : ℕ) : Int))
    (g : Point) (hg : G c = .ok g) (hgc : g.curve = c) (hgv : g.validB = true)
    (hgns : g.nsB = true)
    (hord : scalarLoop nn (Point.infinity c) g nn = .ok (Point.infinity c))
    (priv : ℕ) (hpriv1 : 1 ≤ priv) (hpriv2 : ((priv : ℕ) : Int) < c.n)
    (pub : Point) (hpub : scalar_mult ((priv : ℕ) : Int) g = .ok pub)
    (msg : List Nat) (fuel : ℕ) (r s : Int)
    (hsig : sign sha fuel priv msg c = .ok (r, s)) :
    verify sha pub msg (r, s) = .ok true := by
  haveI : Fact q.Prime := ⟨hqp⟩
  have hnn2 : 2 ≤ nn := hnp.two_le
  obtain ⟨A, hA⟩ := rep_of_valid hp hgc hgv hgns
  have hnt : c.n.toNat = nn := by omega
  -- the record order annihilates the denotation of the base point
  have hordA : nn • A = 0 := by
    obtain ⟨R0, hR0e, hR0r⟩ := scalarLoop_rep hp hq2 nn nn le_rfl rep_infinity hA
    rw [hord] at hR0e
    have h0 := Except.ok.inj hR0e
    subst h0
    have h00 := rep_unique hR0r rep_infinity
    rwa [zero_add] at h00
  -- the base point is affine, so its denotation is nonzero
  have hgshape := (mkPoint_ok_elim hg).1
  have hA0 : A ≠ 0 := by
    intro h0
    have hginf := rep_inf_shape hA h0
    rw [hgshape] at hginf
    have hx := congrArg Point.x hginf
    simp [Point.infinity] at hx
  -- invert the signing run
  obtain ⟨fk, k, g', R, rx, kinv, hk, hg', hR, hRx, hr, hr0, hkinv, hs0ne, hs⟩ :=
    sign_ok_elim sha fuel priv msg c r s hsig
  rw [hg] at hg'
  have hgg : g' = g := (Except.ok.inj hg').symm
  subst hgg
  obtain ⟨hk1, hk2⟩ := rfc6979_ok_range sha fk priv (sha msg) c.n.toNat k hk
  rw [hnt] at hk2
  -- identify the stored public point and R
  have hpriv0 : ¬ ((priv : ℕ) : Int) % c.n = 0 := by
    rw [Int.emod_eq_of_lt (by omega) (by omega)]
    omega
  obtain ⟨pub', hpub'e, hpub'r⟩ := scalar_mult_rep hp hq2 hA hpriv0
  rw [hpub'e] at hpub
  have hpp : pub' = pub := Except.ok.inj hpub
  rw [hpp] at hpub'r
  have hk0 : ¬ ((k : ℕ) : Int) % c.n = 0 := by
    rw [Int.emod_eq_of_lt (by omega) (by omega)]
    omega
  obtain ⟨R', hR'e, hR'r⟩ := scalar_mult_rep hp hq2 hA hk0
  rw [hR'e] at hR
  have hRR : R' = R := Except.ok.inj hR
  rw [hRR] at hR'r
  -- rewrite the signing equations over `nn` and through `r`
  rw [hnt, ← hr] at hs hs0ne
  rw [hnt] at hkinv
  obtain ⟨hkinvEq, -⟩ := pyInvMod_ok_spec hkinv
  -- bounds for r and s
  have hrpos : 0 ≤ rx % c.n := Int.emod_nonneg rx (by omega)
  have hrlt : rx % c.n < c.n := Int.emod_lt_of_pos rx (by omega)
  have hr1 : 1 ≤ r := by omega
  have hr2 : r < c.n := by omega
  have hS0lt : kinv * (bytesToNat (sha msg) % nn + r.toNat * priv) % nn < nn :=
    Nat.mod_lt _ (by omega)
  have hsor : s = ((nn - kinv * (bytesToNat (sha msg) % nn + r.toNat * priv) % nn
        : ℕ) : Int) ∨
      s = ((kinv * (bytesToNat (sha msg) % nn + r.toNat * priv) % nn : ℕ) : Int) := by
    rw [hs]
    by_cases hfl : nn / 2 < kinv * (bytesToNat (sha msg) % nn + r.toNat * priv) % nn
    · left
      rw [if_pos hfl]
    · right
      rw [if_neg hfl]
  have hs1 : 1 ≤ s := by rcases hsor with h | h <;> omega
  have hs2 : s < c.n := by rcases hsor with h | h <;> omega
  -- the denotation of R is affine
  have hkA : (((k : ℕ)) : Int) • A ≠ 0 := by
    rw [natCast_zsmul]
    exact smul_ne_zero_of_lt hnp hordA hA0 hk1 hk2
  cases hKA : (((k : ℕ)) : Int) • A with
  | zero => exact absurd hKA hkA
  | some hnsR =>
    rw [hKA] at hR'r
    obtain ⟨aR, bR, hRshape, haR0, haR1, hbR0, hbR1, haRx, hbRy⟩ :=
      rep_affine_shape hR'r
    have haRrx : aR = rx := by
      rw [hRshape] at hRx
      exact Option.some.inj hRx
    -- unfold verify
    have hpc : pub.curve = c := rep_curve hpub'r
    rw [verify_eq, hpc, hnt]
    rw [if_neg (not_not_intro ⟨hr1, hr2, hs1, hs2⟩)]
    have hsmod : ¬ s.toNat % nn = 0 := by
      rw [Nat.mod_eq_of_lt (by omega)]
      omega
    obtain ⟨w, hw⟩ := pyInvMod_ok_of_prime hnp hsmod
    rw [hw]
    simp only [ebind_ok]
    rw [hg]
    simp only [ebind_ok]
    obtain ⟨hwEq, -⟩ := pyInvMod_ok_spec hw
    obtain ⟨P1, hP1e, hP1r⟩ := scalar_mult_rep_ord hp hq2 hA hordA hn
      ((bytesToNat (sha msg) % nn * w % nn : ℕ) : Int)
    rw [hP1e]
    simp only [ebind_ok]
    have hzord : (((nn : ℕ)) : Int) • A = 0 := by
      rw [natCast_zsmul, hordA]
    have hordpub : nn • (((priv : ℕ) : Int) • A) = 0 := by
      rw [← natCast_zsmul, ← mul_zsmul, mul_comm (((nn : ℕ)) : Int), mul_zsmul,
        hzord, zsmul_zero]
    obtain ⟨P2, hP2e, hP2r⟩ := scalar_mult_rep_ord hp hq2 hpub'r hordpub hn
      ((r.toNat * w % nn : ℕ) : Int)
    rw [hP2e]
    simp only [ebind_ok]
    obtain ⟨P, hPe, hPr⟩ := add_rep hp hq2 hP1r hP2r
    rw [hPe]
    simp only [ebind_ok]
    have hcomb : ((bytesToNat (sha msg) % nn * w % nn : ℕ) : Int) • A +
        ((r.toNat * w % nn : ℕ) : Int) • (((priv : ℕ) : Int) • A) =
        (((bytesToNat (sha msg) % nn * w % nn : ℕ) : Int) +
          ((r.toNat * w % nn : ℕ) : Int) * ((priv : ℕ) : Int)) • A := by
      rw [add_zsmul, mul_zsmul]
    rw [hcomb] at hPr
    have h1 := (ZMod.natCast_eq_natCast_iff (k * kinv) 1 nn).mpr hkinvEq
    by_cases hflip : nn / 2 <
        kinv * (bytesToNat (sha msg) % nn + r.toNat * priv) % nn
    · -- low-S flip: the verification point is `-(k·G)`, same x-coordinate
      have hstn : s.toNat =
          nn - kinv * (bytesToNat (sha msg) % nn + r.toNat * priv) % nn := by
        rw [hs, if_pos hflip]
        omega
      rw [hstn] at hwEq
      have h3 := (ZMod.natCast_eq_natCast_iff _ _ nn).mpr hwEq
      rw [Nat.cast_mul, Nat.cast_sub (Nat.le_of_lt hS0lt), ZMod.natCast_self,
        zero_sub] at h3
      have hres : (((((bytesToNat (sha msg) % nn * w % nn : ℕ) : Int) +
            ((r.toNat * w % nn : ℕ) : Int) * ((priv : ℕ) : Int)) : Int) : ZMod nn) =
          (((-((k : ℕ) : Int)) : Int) : ZMod nn) := by
        push_cast [natCast_mod_zmod] at h1 h3 ⊢
        linear_combination
          (-((w : ZMod nn) * ((bytesToNat (sha msg) : ZMod nn) +
            (r.toNat : ZMod nn) * (priv : ZMod nn)))) * h1 +
          (-((k : ZMod nn))) * h3
      have hsc := zsmul_congr hordA hres
      rw [hsc, neg_zsmul, hKA, WeierstrassCurve.Affine.Point.neg_some] at hPr
      obtain ⟨aP, bP, hPshape, haP0, haP1, hbP0, hbP1, haPx, hbPy⟩ :=
        rep_affine_shape hPr
      have haPaR : aP = aR :=
        castInj haP0 (hp ▸ haP1) haR0 (hp ▸ haR1) (haPx.trans haRx.symm)
      rw [hPshape]
      rw [if_neg (by simp [Point.is_infinity])]
      dsimp only
      rw [decide_eq_true (show aP % c.n = r by rw [haPaR, haRrx]; exact hr.symm)]
    · -- no flip: the verification point is exactly `k·G`
      have hstn : s.toNat =
          kinv * (bytesToNat (sha msg) % nn + r.toNat * priv) % nn := by
        rw [hs, if_neg hflip]
        omega
      rw [hstn] at hwEq
      have h3 := (ZMod.natCast_eq_natCast_iff _ _ nn).mpr hwEq
      have hres : (((((bytesToNat (sha msg) % nn * w % nn : ℕ) : Int) +
            ((r.toNat * w % nn : ℕ) : Int) * ((priv : ℕ) : Int)) : Int) : ZMod nn) =
          ((((k : ℕ) : Int) : Int) : ZMod nn) := by
        push_cast [natCast_mod_zmod] at h1 h3 ⊢
        linear_combination
          (-((w : ZMod nn) * ((bytesToNat (sha msg) : ZMod nn) +
            (r.toNat : ZMod nn) * (priv : ZMod nn)))) * h1 +
          ((k : ZMod nn)) * h3
      have hsc := zsmul_congr hordA hres
      rw [hsc] at hPr
      have hPR : P = R := rep_point_unique hp (hKA ▸ hPr) hR'r
      rw [hPR, hRshape]
      rw [if_neg (by simp [Point.is_infinity])]
      dsimp only
      rw [decide_eq_true (show aR % c.n = r by rw [haRrx]; exact hr.symm)]

set_option maxRecDepth 200000 in
theorem claim_C2_witness :
    (Nat.Prime 17 ∧ Nat.Prime 19 ∧ (17 : ℕ) ≠ 2 ∧
      toyCurve.p = ((17 : ℕ) : Int) ∧ toyCurve.n = ((19 : ℕ) : Int) ∧
      G toyCurve = .ok toyG ∧ toyG.curve = toyCurve ∧ toyG.validB = true ∧
      toyG.nsB = true ∧
      scalarLoop 19 (Point.infinity toyCurve) toyG 19 =
        .ok (Point.infinity toyCurve) ∧
      1 ≤ (3 : ℕ) ∧ (((3 : ℕ)) : Int) < toyCurve.n ∧
      scalar_mult (((3 : ℕ)) : Int) toyG = .ok toyQA ∧
      sign shaTestB 8 3 [1, 2, 3] toyCurve = .ok (3, 9)) ∧
    verify shaTestB toyQA [1, 2, 3] (3, 9) = .ok true :=
  ⟨by decide,
    claim_C2_sign_verify_roundtrip shaTestB toyCurve 17 19 (by decide) (by decide)
      (by decide) (by decide) (by decide) toyG (by decide) (by decide) (by decide)
      (by decide) (by decide) 3 (by decide) (by decide) toyQA (by decide)
      [1, 2, 3] 8 3 9 (by decide)⟩

end ECC
